import Mathlib

/-!
# Verification of the OH_Toolkit nested-path extraction engine

A shallow embedding, in Lean 4, of the parts of the OH_Toolkit repository that
the behavioural claims refer to:

* `oh_parser/path_resolver.py` — `resolve_path`, `path_exists`, `expand_wildcards`;
* `oh_parser/filters.py` — `matches_pattern`, `exclude_keys`, `include_keys`,
  `create_filters`, `apply_subject_filters`;
* `docs/visualization/data.py` — the outer-merge step of
  `extract_smartwatch_and_smartphone`;
* `docs/visualization/utils.py` — `add_session_number`, `autofill_nan_groups`;
* `oh_stats/prepare.py` — `_handle_sides`.

Python `dict`s are embedded as insertion-ordered association lists with unique
keys, JSON values as the inductive type `JValue`, pandas tables as lists of
rows, and Python exceptions as `Except`.  All definitions are executable.
-/

/-- A JSON-like value: the shape of a parsed OH profile.  Mirrors the possible
results of `json.load`: objects become insertion-ordered association lists. -/
inductive JValue where
  | null : JValue
  | boolean : Bool → JValue
  | num : Int → JValue
  | str : String → JValue
  | arr : List JValue → JValue
  | obj : List (String × JValue) → JValue

/-- Python `dict` lookup on an association list (`current[part]` /
`part in current`): the first entry with the given key, if any. -/
def jlookup (es : List (String × JValue)) (k : String) : Option JValue :=
  (es.find? (fun p => p.1 == k)).map (fun p => p.2)

/-- `d[k] = v` on an insertion-ordered Python dict embedded as an association
list: overwrite in place when the key is present, else append at the end. -/
def dictSet (ctx : List (String × String)) (k v : String) : List (String × String) :=
  if ctx.any (fun p => p.1 == k) then
    ctx.map (fun p => if p.1 == k then (k, v) else p)
  else ctx ++ [(k, v)]

/-- `str.split` on a single-character separator, over a character list.
Splitting the empty list gives one empty group, so `"".split(".") == [""]`
is mirrored. -/
def splitCharsOn (sep : Char) : List Char → List (List Char)
  | [] => [[]]
  | c :: cs =>
    let r := splitCharsOn sep cs
    if c = sep then [] :: r
    else
      match r with
      | [] => [[c]]
      | g :: gs => (c :: g) :: gs

/-- Embedding of Python `path.split(".")`. -/
def splitDot (s : String) : List String :=
  (splitCharsOn '.' s.toList).map (fun cs => String.mk cs)

/-- Modelled from the spec: `safe_get` from `oh_parser.utils` is imported by
`path_resolver.py` but `oh_parser/utils.py` is not among the sources.
Spec §4.1: split the path on `.` and walk the mapping segment by segment,
returning the default the instant a segment is missing or the current node is
not a mapping while segments remain.  Here the walk returns `none` in those
cases; `none` plays the role of the caller's default / unique sentinel. -/
def safe_getO : JValue → List String → Option JValue
  | v, [] => some v
  | .obj es, k :: ks =>
    (match jlookup es k with
     | some v => safe_getO v ks
     | none => none)
  | _, _ :: _ => none

/-- `resolve_path` from `oh_parser/path_resolver.py`: empty path returns the
data itself, otherwise delegate to `safe_get` on the split segments. -/
def resolve_path (data : JValue) (path : String) (default : JValue) : JValue :=
  if path = "" then data
  else (safe_getO data (splitDot path)).getD default

/-- `path_exists` from `oh_parser/path_resolver.py`: resolve with a unique
sentinel default and test that the sentinel did not come back.  In the
embedding the sentinel is `none`. -/
def path_existsB (data : JValue) (path : String) : Bool :=
  if path = "" then true
  else (safe_getO data (splitDot path)).isSome

/-- The level name used for wildcard index `i`: positionally from the
level-name list, else the synthesized Python `f"level_{i}"`. -/
def levelNameAt (names : List String) (i : Nat) : String :=
  names.getD i ("level_" ++ toString i)

/-- The inner recursive generator `_expand` of `expand_wildcards`
(`oh_parser/path_resolver.py`).  The generator is embedded as the eagerly
materialized list of the pairs it yields, in yield order. -/
def expandAux (names : List String) :
    List String → JValue → List (String × String) → Nat →
      List (List (String × String) × JValue)
  | [], current, ctx, _ => [(ctx, current)]
  | part :: rest, current, ctx, widx =>
    match current with
    | .obj es =>
      if part = "*" then
        es.flatMap (fun kv =>
          expandAux names rest kv.2 (dictSet ctx (levelNameAt names widx) kv.1) (widx + 1))
      else
        match jlookup es part with
        | some v => expandAux names rest v ctx widx
        | none => []
    | _ => []

/-- `expand_wildcards` from `oh_parser/path_resolver.py`: split the path on
`.` and run the recursive generator from an empty context.  A `level_names`
of `none` in Python defaults to `[]`; the embedding takes the list directly. -/
def expand_wildcards (data : JValue) (path : String) (names : List String) :
    List (List (String × String) × JValue) :=
  expandAux names (splitDot path) data [] 0

mutual

/-- Well-formedness of a `JValue` as a tree of genuine Python dicts: every
object met along any object spine has pairwise distinct keys.  (Values stored
inside arrays are never descended into by the traversal functions, and arrays
produced by `json.load` cannot hold dicts with duplicate keys anyway.) -/
def JValue.wf : JValue → Bool
  | .obj es => decide ((es.map (fun p => p.1)).Nodup) && wfEntries es
  | _ => true

/-- Auxiliary conjunction of `JValue.wf` over the values of an object. -/
def wfEntries : List (String × JValue) → Bool
  | [] => true
  | kv :: rest => kv.2.wf && wfEntries rest

end

/-- Claim-side notion for C1: a traversal branch of `parts` through `data`,
identified by the list of keys taken at each segment.  It is valid when it has
one key per segment, the walk along those keys succeeds (so every literal key
exists and every intermediate node is a mapping), and each literal segment's
key is the segment itself; a wildcard segment may select any key of the
mapping at that level (the walk's success forces exactly that). -/
def ValidBranch (data : JValue) (parts ks : List String) : Prop :=
  ks.length = parts.length ∧ (safe_getO data ks).isSome = true ∧
    ∀ pk ∈ parts.zip ks, pk.1 ≠ "*" → pk.2 = pk.1

instance (data : JValue) (parts ks : List String) : Decidable (ValidBranch data parts ks) := by
  unfold ValidBranch
  exact inferInstance

/-- The traversal branches of `parts` through `data`, enumerated in the
dict-iteration, depth-first order in which `expand_wildcards` visits them. -/
def branchKeys : JValue → List String → List (List String)
  | _, [] => [[]]
  | .obj es, part :: rest =>
    if part = "*" then
      es.flatMap (fun kv => (branchKeys kv.2 rest).map (fun ks => kv.1 :: ks))
    else
      match jlookup es part with
      | some v => (branchKeys v rest).map (fun ks => part :: ks)
      | none => []
  | _, _ :: _ => []

/-- Claim-side context of a branch: walk the segments and the chosen keys in
parallel and, at each wildcard, bind the positional (or synthesized) level
name to the key chosen there. -/
def ctxOfBranch (names : List String) :
    List String → List String → List (String × String) → Nat → List (String × String)
  | [], _, ctx, _ => ctx
  | _ :: _, [], ctx, _ => ctx
  | p :: ps, k :: ks, ctx, w =>
    if p = "*" then ctxOfBranch names ps ks (dictSet ctx (levelNameAt names w) k) (w + 1)
    else ctxOfBranch names ps ks ctx w

/-- The suffixes of a character list, longest first, down to `[]`. -/
def sufList : List Char → List (List Char)
  | [] => [[]]
  | c :: cs => (c :: cs) :: sufList cs

/-- Glob matching for `fnmatch.fnmatch(key, pattern)` as used by
`matches_pattern` (`oh_parser/filters.py`): `*` matches any run of characters,
`?` any single character, other characters match literally, case-sensitively.
(Per the spec's design note the glob subset is minimal and case-sensitive;
character classes are not used anywhere in the repository and are not
modelled.)  A `*` succeeds when the rest of the pattern matches some suffix
of the rest of the key. -/
def globMatch : List Char → List Char → Bool
  | [], s => s.isEmpty
  | '*' :: ps, s => (sufList s).any (fun t => globMatch ps t)
  | '?' :: ps, s =>
    (match s with
     | [] => false
     | _ :: cs => globMatch ps cs)
  | p :: ps, s =>
    (match s with
     | [] => false
     | c :: cs => p == c && globMatch ps cs)

/-- `matches_pattern` (`oh_parser/filters.py`): true iff the key matches at
least one of the patterns. -/
def matches_pattern (key : String) (patterns : List String) : Bool :=
  patterns.any (fun p => globMatch p.toList key.toList)

/-- `exclude_keys` (`oh_parser/filters.py`): keep the keys matching no
exclusion pattern, preserving relative order. -/
def exclude_keys (keys : List String) (exclude_patterns : List String) : List String :=
  keys.filter (fun k => !matches_pattern k exclude_patterns)

/-- `include_keys` (`oh_parser/filters.py`): keep only the keys matching at
least one inclusion pattern, preserving relative order. -/
def include_keys (keys : List String) (include_patterns : List String) : List String :=
  keys.filter (fun k => matches_pattern k include_patterns)

/-- The filters dictionary built by `create_filters` (`oh_parser/filters.py`):
one optional field per recognized option; `none` embeds Python `None`.  The
custom filter is a pure predicate over (subject_id, profile), as in the
source. -/
structure Filters where
  subject_ids : Option (List String)
  exclude_subjects : Option (List String)
  groups : Option (List String)
  date_range : Option (String × String)
  require_keys : Option (List String)
  custom_filter : Option (String → JValue → Bool)

/-- `create_filters` (`oh_parser/filters.py`): package the six options into
the filters dictionary. -/
def create_filters (subject_ids : Option (List String))
    (exclude_subjects : Option (List String)) (groups : Option (List String))
    (date_range : Option (String × String)) (require_keys : Option (List String))
    (custom_filter : Option (String → JValue → Bool)) : Filters :=
  { subject_ids := subject_ids, exclude_subjects := exclude_subjects,
    groups := groups, date_range := date_range, require_keys := require_keys,
    custom_filter := custom_filter }

/-- The group-membership test of `apply_subject_filters`: resolve the profile's
`meta_data.group` (default `None`, embedded as `.null`) and test Python
membership of that value in the configured string list — only a string value
can be a member. -/
def groupMatches (profile : JValue) (l : List String) : Bool :=
  match resolve_path profile "meta_data.group" .null with
  | .str s => l.contains s
  | _ => false

/-- The per-pair test of `apply_subject_filters` (`oh_parser/filters.py`): the
body of its loop, each `continue` guard becoming a short-circuit conjunct, in
source order — allow-list, deny-list, group, required keys, custom filter. -/
def keepSubject (f : Filters) (sid : String) (profile : JValue) : Bool :=
  (match f.subject_ids with
   | some l => l.contains sid
   | none => true) &&
  (match f.exclude_subjects with
   | some l => !l.contains sid
   | none => true) &&
  (match f.groups with
   | some l => groupMatches profile l
   | none => true) &&
  (match f.require_keys with
   | some l => l.all (fun k => path_existsB profile k)
   | none => true) &&
  (match f.custom_filter with
   | some g => g sid profile
   | none => true)

/-- `apply_subject_filters` (`oh_parser/filters.py`): `None` filters return the
input dict itself; otherwise iterate the profiles dict in its order, inserting
each passing pair into a fresh result dict. -/
def apply_subject_filters (profiles : List (String × JValue)) :
    Option Filters → List (String × JValue)
  | none => profiles
  | some f =>
    profiles.foldl (fun res x => if keepSubject f x.1 x.2 then res ++ [x] else res) []

/-- Claim-side reading of C7: a (subject_id, profile) pair passes when every
configured (non-null) criterion holds — allow-list membership, deny-list
exclusion, group membership read from `meta_data.group`, existence of every
required path, and the custom predicate. -/
def PassesFilters (f : Filters) (sid : String) (profile : JValue) : Prop :=
  (∀ l, f.subject_ids = some l → sid ∈ l) ∧
  (∀ l, f.exclude_subjects = some l → sid ∉ l) ∧
  (∀ l, f.groups = some l → groupMatches profile l = true) ∧
  (∀ l, f.require_keys = some l → ∀ k ∈ l, path_existsB profile k = true) ∧
  (∀ g, f.custom_filter = some g → g sid profile = true)

/-- The merge key of the Table Composer: (subject_id, work_type, date,
session), the `on` columns of the `pd.merge` calls in
`extract_smartwatch_and_smartphone` (`docs/visualization/data.py`). -/
abbrev MKey := String × String × String × String

/-- A tidy table at the merge step: a value-column schema plus one key and one
optional cell per value column for each row (`none` is NaN). -/
structure MTable where
  cols : List String
  rows : List (MKey × List (Option Int))
deriving DecidableEq, Repr

/-- Modelled from the documented semantics of
`pd.merge(A, B, on=key_cols, how="outer")` as called in
`extract_smartwatch_and_smartphone` (`docs/visualization/data.py`): a
database-style full outer join on the key columns.  Every A-row is matched
with every B-row sharing its key (duplicated keys on both sides produce the
per-key cartesian product); a row of either side with no match on the other
appears once, the other side's columns missing.  pandas' lexicographic
re-ordering of the outer-join output is not modelled: the claims under
verification concern only row counts and the untouched-side cases. -/
def outerMerge (A B : MTable) : MTable :=
  { cols := A.cols ++ B.cols
    rows :=
      (A.rows.flatMap (fun a =>
        let ms := B.rows.filter (fun b => b.1 == a.1)
        if ms.isEmpty then [(a.1, a.2 ++ List.replicate B.cols.length none)]
        else ms.map (fun b => (a.1, a.2 ++ b.2))))
      ++ ((B.rows.filter (fun b => A.rows.all (fun a => !(a.1 == b.1)))).map
          (fun b => (b.1, List.replicate A.cols.length none ++ b.2))) }

/-- The combination step of `extract_smartwatch_and_smartphone`
(`docs/visualization/data.py`, both the smartwatch and the smartphone
halves): outer-merge when both frames are non-empty, otherwise return the
non-empty frame itself unchanged, or a fresh empty frame (`pd.DataFrame()`)
when both are empty.  A pandas frame is `.empty` iff it has no rows. -/
def mergeStep (A B : MTable) : MTable :=
  if !A.rows.isEmpty && !B.rows.isEmpty then outerMerge A B
  else if !A.rows.isEmpty then A
  else if !B.rows.isEmpty then B
  else { cols := [], rows := [] }

/-- True iff the character list is non-empty and all digits. -/
def allDigits (cs : List Char) : Bool :=
  !cs.isEmpty && cs.all (fun c => c.isDigit)

/-- The numeric value of a digit list. -/
def natOfDigits (cs : List Char) : Nat :=
  cs.foldl (fun acc c => acc * 10 + (c.toNat - 48)) 0

/-- One `strptime` field: all digits, with a width between `lo` and `hi`. -/
def parseField (cs : List Char) (lo hi : Nat) : Option Nat :=
  if allDigits cs ∧ lo ≤ cs.length ∧ cs.length ≤ hi then some (natOfDigits cs)
  else none

/-- Gregorian leap-year rule, as in Python `datetime`. -/
def isLeapYear (y : Nat) : Bool :=
  (y % 4 == 0 && y % 100 != 0) || y % 400 == 0

/-- Days in a month, as validated by Python `datetime`. -/
def daysInMonth (m y : Nat) : Nat :=
  if m = 2 then (if isLeapYear y then 29 else 28)
  else if m = 4 ∨ m = 6 ∨ m = 9 ∨ m = 11 then 30
  else 31

/-- `pd.to_datetime(s, format="%d-%m-%Y", errors="coerce")` on one value,
modelled as `strptime` with that format: day and month of one or two digits,
year of one to four digits, separated by `-` and validated against the
calendar; any failure coerces to missing (`NaT`, embedded as `none`).  A date
is encoded as the natural number y*10000 + m*100 + d. -/
def parseDMY (s : String) : Option Nat :=
  match splitCharsOn '-' s.toList with
  | [ds, ms, ys] =>
    (match parseField ds 1 2, parseField ms 1 2, parseField ys 1 4 with
     | some d, some m, some y =>
       if 1 ≤ y ∧ 1 ≤ m ∧ m ≤ 12 ∧ 1 ≤ d ∧ d ≤ daysInMonth m y then
         some (y * 10000 + m * 100 + d)
       else none
     | _, _, _ => none)
  | _ => none

/-- `pd.to_datetime(s, format="%H-%M-%S", errors="coerce").dt.time` on one
value: hours, minutes, seconds of one or two digits separated by `-`,
validated to a time of day; failures coerce to missing.  A time is encoded as
seconds since midnight. -/
def parseHMS (s : String) : Option Nat :=
  match splitCharsOn '-' s.toList with
  | [hs, ms, ss] =>
    (match parseField hs 1 2, parseField ms 1 2, parseField ss 1 2 with
     | some h, some m, some sec =>
       if h ≤ 23 ∧ m ≤ 59 ∧ sec ≤ 59 then some (h * 3600 + m * 60 + sec)
       else none
     | _, _, _ => none)
  | _ => none

/-- A row of the visualization table as `add_session_number` sees it: the
subject, date and session columns (the other columns play no role in it). -/
structure SRow where
  subject_id : String
  date : String
  session : String
deriving DecidableEq, Repr

/-- A session row paired with its original position and its coerced date and
time, the intermediate state of the `add_session_number` pipeline. -/
structure IRow where
  idx : Nat
  row : SRow
  pdate : Option Nat
  ptime : Option Nat
deriving DecidableEq, Repr

/-- Sort key of `df.sort_values(session_col)` after the coercing time-parse:
parsed times ascend by seconds-of-day and unparseable times (`NaT`) sort
last (`na_position="last"`); 100000 exceeds every second-of-day. -/
def timeKeyNum : Option Nat → Nat
  | some t => t
  | none => 100000

/-- Same `groupby(["subject_id", date_col])` group: same subject and equal
parsed dates. -/
def sameGroup (a b : IRow) : Bool :=
  a.row.subject_id == b.row.subject_id && a.pdate == b.pdate

/-- The sort relation of `df.sort_values(session_col)` as a proposition. -/
def timeLe (a b : IRow) : Prop :=
  timeKeyNum a.ptime ≤ timeKeyNum b.ptime

instance : DecidableRel timeLe := fun _ _ => Nat.decLe _ _

instance : IsTotal IRow timeLe :=
  ⟨fun a b => Nat.le_total (timeKeyNum a.ptime) (timeKeyNum b.ptime)⟩

instance : IsTrans IRow timeLe :=
  ⟨fun _ _ _ h1 h2 => Nat.le_trans h1 h2⟩

/-- The coercion step of `add_session_number`: each row paired with its
original position and its parsed (`errors="coerce"`) date and session time. -/
def mkIRows (rows : List SRow) : List IRow :=
  rows.enum.map (fun p =>
    { idx := p.1, row := p.2, pdate := parseDMY p.2.date, ptime := parseHMS p.2.session : IRow })

/-- `df.sort_values(session_col)`: all rows sorted by parsed session time,
missing times last. -/
def sortedIRows (rows : List SRow) : List IRow :=
  (mkIRows rows).insertionSort timeLe

/-- The `groupby(["subject_id", date_col]).cumcount() + 1` value of the sorted
row at sort position `q.1`: one plus the count of preceding same-group rows in
sort order — or missing when the row's group key (the parsed date) is missing,
since `groupby` drops such rows. -/
def ordAtPos (rows : List SRow) (q : Nat × IRow) : Option Nat :=
  match q.2.pdate with
  | some _ => some (1 + ((sortedIRows rows).take q.1).countP (fun r => sameGroup r q.2))
  | none => none

/-- The cumcount series, keyed by original row index for alignment. -/
def cumOf (rows : List SRow) : List (Nat × Option Nat) :=
  (sortedIRows rows).enum.map (fun q => (q.2.idx, ordAtPos rows q))

/-- `add_session_number` (`docs/visualization/utils.py`), mirroring its pandas
pipeline: coerce the date and session columns (failures become missing); sort
all rows by parsed session time, missing times last (the model's sort is
stable; pandas' default quicksort fixes no order among equal times and the
properties verified do not depend on one); number each (subject_id, parsed
date) group's rows cumulatively from 1 in sort order, rows with missing group
key excluded; align the ordinals back to the original rows by index. -/
def add_session_number (rows : List SRow) : List (SRow × Option Nat) :=
  rows.enum.map (fun p =>
    (p.2, (((cumOf rows).find? (fun e => e.1 == p.1)).map (fun e => e.2)).getD none))

/-- Does `s` start with `pat`? -/
def isPrefixList : List Char → List Char → Bool
  | [], _ => true
  | _ :: _, [] => false
  | p :: ps, c :: cs => p == c && isPrefixList ps cs

/-- Does `s` contain `pat` as a contiguous run (Python `pat in s`)? -/
def hasSubList (pat : List Char) : List Char → Bool
  | [] => isPrefixList pat []
  | c :: cs => isPrefixList pat (c :: cs) || hasSubList pat cs

/-- Python `pat in s` on strings. -/
def strContains (s pat : String) : Bool :=
  hasSubList pat.toList s.toList

/-- The column filter of `autofill_nan_groups` (`docs/visualization/utils.py`):
flattened metric columns, i.e. names containing a `.` and the word
"distributions". -/
def isMetricCol (c : String) : Bool :=
  strContains c "." && strContains c "distributions"

/-- `col.rsplit(".", 1)[0]`: everything before the last `.` (the whole name
when there is no dot — `isMetricCol` guarantees one wherever this is used). -/
def prefixOf (c : String) : String :=
  String.intercalate "." (((splitCharsOn '.' c.toList).map (fun cs => String.mk cs)).dropLast)

/-- A DataFrame for the group-fill: named columns and rectangular rows of
optional numeric cells (`none` is NaN). -/
structure DTable where
  cols : List String
  rows : List (List (Option Int))
deriving DecidableEq, Repr

/-- `groups.setdefault(prefix, []).append(col)`: append the member to its
prefix's group, creating the group at the end on first sight. -/
def insertGroup : List (String × List Nat) → String → Nat → List (String × List Nat)
  | [], p, j => [(p, [j])]
  | (q, js) :: rest, p, j =>
    if q = p then (q, js ++ [j]) :: rest
    else (q, js) :: insertGroup rest p j

/-- The `groups` dict of `autofill_nan_groups`: metric column positions
grouped by their dotted prefix, groups in order of first appearance, members
in column order.  (Column positions stand for the source's column names; the
two agree on any pandas frame since selection by a name list addresses every
column bearing each name.) -/
def buildGroups (cols : List String) : List (String × List Nat) :=
  ((List.range cols.length).filter (fun j => isMetricCol (cols.getD j ""))).foldl
    (fun acc j => insertGroup acc (prefixOf (cols.getD j "")) j) []

/-- `df[cols].notna().any(axis=1)` for one row: some group cell is present. -/
def rowHasAny (js : List Nat) (r : List (Option Int)) : Bool :=
  js.any (fun j => (r.getD j none).isSome)

/-- `fillna(0)` restricted to the group's columns, for one row. -/
def fillRow (js : List Nat) (r : List (Option Int)) : List (Option Int) :=
  r.enum.map (fun p => if js.contains p.1 && p.2.isNone then some 0 else p.2)

/-- `df.loc[mask_any, cols] = df.loc[mask_any, cols].fillna(0)`: fill the
group's missing cells with 0 on exactly the rows where the group has some
present cell. -/
def applyGroup (js : List Nat) (rows : List (List (Option Int))) :
    List (List (Option Int)) :=
  rows.map (fun r => if rowHasAny js r then fillRow js r else r)

/-- `autofill_nan_groups` (`docs/visualization/utils.py`): build the prefix
groups of the metric columns and apply the group fill for each group of at
least `min_group_size` members (the source's default is 2), in group order. -/
def autofill_nan_groups (t : DTable) (min_group_size : Nat) : DTable :=
  { cols := t.cols
    rows := (buildGroups t.cols).foldl
      (fun rows g => if g.2.length < min_group_size then rows else applyGroup g.2 rows)
      t.rows }

/-- Claim-side group of a column position for C4: every metric column position
sharing its dotted prefix (the claim's "partition by dotted prefix"). -/
def groupIdxsOf (cols : List String) (j : Nat) : List Nat :=
  (List.range cols.length).filter (fun j2 =>
    isMetricCol (cols.getD j2 "") && (prefixOf (cols.getD j2 "") == prefixOf (cols.getD j "")))

/-- The cell of a row list at row `i`, column `j` (`none` when absent). -/
def cellAt (rows : List (List (Option Int))) (i j : Nat) : Option Int :=
  (rows.getD i []).getD j none

/-- A table is rectangular: every row has one cell per column. -/
def Rect (t : DTable) : Prop :=
  ∀ r ∈ t.rows, r.length = t.cols.length

/-- A row of the EMG daily table as `_handle_sides` sees it: the `subject_id`,
`date` and `side` columns plus the numeric outcome cells (`none` is NaN),
aligned with the table's value-column schema. -/
structure PrepRow where
  subject_id : String
  date : String
  side : String
  vals : List (Option Rat)
deriving DecidableEq, Repr

/-- The DataFrame given to `_handle_sides` (`oh_stats/prepare.py`):
`hasSide` embeds the `"side" in df.columns` test (dropping the side column
clears it), `valCols` names the numeric outcome columns, i.e. the columns
that `select_dtypes(include=[np.number])` finds. -/
structure PrepTable where
  hasSide : Bool
  valCols : List String
  rows : List PrepRow
deriving DecidableEq, Repr

/-- `df.groupby(["subject_id","date"])["side"].nunique()`'s distinct side
values for one (subject, date) key. -/
def sideSet (rows : List PrepRow) (k : String × String) : List String :=
  (rows.filterMap (fun r =>
    if r.subject_id == k.1 && r.date == k.2 then some r.side else none)).dedup

/-- Lexicographic order on (subject_id, date) keys, as `groupby(sort=True)`
orders its groups. -/
def keyLe (a b : String × String) : Prop :=
  (decide (a.1 < b.1) || (a.1 == b.1 && !decide (b.2 < a.2))) = true

instance : DecidableRel keyLe := fun _ _ => instDecidableEqBool _ _

/-- `groupby(meta_cols)[numeric_cols].mean()` for one group and one numeric
column: the mean of the present values (pandas skips NaN), or NaN when every
value is missing. -/
def meanAt (grp : List PrepRow) (j : Nat) : Option Rat :=
  let xs := grp.filterMap (fun r => r.vals.getD j none)
  if xs.isEmpty then none else some (xs.sum / (xs.length : Rat))

/-- `_handle_sides` (`oh_stats/prepare.py`): side filtering/averaging.  A
raised `ValueError` is `Except.error`; `warnings.warn` changes no returned
data and is not modelled.  Branches in source order: a table without a side
column is returned as is; `"left"`/`"right"` filter to that side and drop the
side column; `"both"` keeps the table and reports `["side"]` as grouping
variable; `"average"` averages the numeric columns over (subject_id, date)
keys holding exactly two distinct sides, returning all data unchanged when no
key has both sides; anything else raises `ValueError`. -/
def handle_sides (df : PrepTable) (side : String) :
    Except String (PrepTable × List String) :=
  if !df.hasSide then .ok (df, [])
  else if side == "left" then
    .ok ({ df with hasSide := false, rows := df.rows.filter (fun r => r.side == "left") }, [])
  else if side == "right" then
    .ok ({ df with hasSide := false, rows := df.rows.filter (fun r => r.side == "right") }, [])
  else if side == "both" then .ok (df, ["side"])
  else if side == "average" then
    let keys := (df.rows.map (fun r => (r.subject_id, r.date))).dedup
    let hasBoth := keys.filter (fun k => (sideSet df.rows k).length == 2)
    if hasBoth.isEmpty then .ok (df, ["side"])
    else
      let dfBoth := df.rows.filter (fun r => hasBoth.contains (r.subject_id, r.date))
      let gkeys := ((dfBoth.map (fun r => (r.subject_id, r.date))).dedup).insertionSort keyLe
      let avgRows := gkeys.map (fun k =>
        { subject_id := k.1, date := k.2, side := "",
          vals := (List.range df.valCols.length).map (fun j =>
            meanAt (dfBoth.filter (fun r => r.subject_id == k.1 && r.date == k.2)) j) : PrepRow })
      .ok ({ hasSide := false, valCols := df.valCols, rows := avgRows }, [])
  else .error ("Unknown side option: " ++ side)

/-- The recognized side-handling modes (`SideOption` in `oh_stats/prepare.py`). -/
def sideOptions : List String := ["left", "right", "both", "average"]

/-- The members holding prefix `p` across a groups dict, concatenated over
the entries keyed `p`; when the entry keys are distinct this is the sole
`p`-entry's member list. -/
def groupJoin (gs : List (String × List Nat)) (p : String) : List Nat :=
  (gs.filter (fun g => g.1 == p)).flatMap (fun g => g.2)

/-- A default session row, used only as the out-of-range `getD` filler in
claim statements. -/
def srDefault : SRow := { subject_id := "", date := "", session := "" }

/-- Claim-side accessor: the `n_session` ordinal assigned to the row at
original position `i`. -/
def nSessionAt (rows : List SRow) (i : Nat) : Option Nat :=
  ((add_session_number rows).getD i (srDefault, none)).2

/-- The concrete profile used by witnesses: two dates, the first with two
sessions, the second with a session lacking the `left` leaf. -/
def profileEx : JValue := .obj [("emg", .obj [
  ("2025-01-01", .obj [("10-00-00", .obj [("left", .num 1)]),
                       ("11-00-00", .obj [("left", .num 2)])]),
  ("2025-01-02", .obj [("10-00-00", .obj [("right", .num 3)])])])]

theorem jlookup_mem {es : List (String × JValue)} {k : String} {v : JValue}
    (h : jlookup es k = some v) : (k, v) ∈ es := by
  unfold jlookup at h
  cases hf : es.find? (fun p => p.1 == k) with
  | none => rw [hf] at h; simp at h
  | some p =>
    rw [hf] at h
    simp only [Option.map_some'] at h
    have hm := List.mem_of_find?_eq_some hf
    have hp := List.find?_some hf
    simp only [beq_iff_eq] at hp
    have : (k, v) = p := by
      cases p with
      | mk a b =>
        rw [show a = k from hp, show b = v from Option.some.inj h]
    rw [this]; exact hm

theorem jlookup_of_mem_nodup {es : List (String × JValue)} {k : String} {v : JValue}
    (hnd : (es.map (fun p => p.1)).Nodup) (hm : (k, v) ∈ es) : jlookup es k = some v := by
  induction es with
  | nil => simp at hm
  | cons kv rest ih =>
    simp only [List.map_cons, List.nodup_cons] at hnd
    rcases List.mem_cons.mp hm with heq | hmem
    · subst heq
      simp [jlookup]
    · have hne : kv.1 ≠ k := by
        intro hcontra
        exact hnd.1 (hcontra ▸ (List.mem_map.mpr ⟨(k, v), hmem, rfl⟩))
      simp only [jlookup, List.find?_cons]
      rw [show (kv.1 == k) = false from beq_eq_false_iff_ne.mpr hne]
      exact ih hnd.2 hmem

theorem wf_nodup {es : List (String × JValue)} (h : (JValue.obj es).wf = true) :
    (es.map (fun p => p.1)).Nodup := by
  unfold JValue.wf at h
  exact of_decide_eq_true (Bool.and_elim_left h)

theorem wfEntries_mem {kv : String × JValue} :
    ∀ {es : List (String × JValue)}, wfEntries es = true → kv ∈ es → kv.2.wf = true
  | [], _, hm => by simp at hm
  | x :: rest, he, hm => by
    unfold wfEntries at he
    rcases List.mem_cons.mp hm with heq | hmem
    · subst heq; exact Bool.and_elim_left he
    · exact wfEntries_mem (Bool.and_elim_right he) hmem

theorem wf_child {es : List (String × JValue)} {kv : String × JValue}
    (h : (JValue.obj es).wf = true) (hm : kv ∈ es) : kv.2.wf = true := by
  unfold JValue.wf at h
  exact wfEntries_mem (Bool.and_elim_right h) hm

theorem expandAux_eq (names : List String) (parts : List String) :
    ∀ (v : JValue), v.wf = true → ∀ (ctx : List (String × String)) (widx : Nat),
      expandAux names parts v ctx widx =
        (branchKeys v parts).map
          (fun ks => (ctxOfBranch names parts ks ctx widx, (safe_getO v ks).getD .null)) := by
  induction parts with
  | nil => intro v hwf ctx widx; simp [expandAux, branchKeys, ctxOfBranch, safe_getO]
  | cons part rest ih =>
    intro v hwf ctx widx
    cases v with
    | obj es =>
      by_cases hstar : part = "*"
      · subst hstar
        simp only [expandAux, branchKeys, if_pos rfl, if_true, List.map_flatMap]
        apply List.flatMap_congr
        intro kv hkv
        rw [ih kv.2 (wf_child hwf hkv), List.map_map]
        apply List.map_congr_left
        intro ks hks
        have hl : jlookup es kv.1 = some kv.2 := jlookup_of_mem_nodup (wf_nodup hwf) hkv
        simp [ctxOfBranch, safe_getO, hl, Function.comp]
      · cases hl : jlookup es part with
        | some v' =>
          simp only [expandAux, branchKeys, hl, if_neg hstar]
          rw [ih v' (wf_child hwf (jlookup_mem hl)), List.map_map]
          apply List.map_congr_left
          intro ks hks
          simp [ctxOfBranch, safe_getO, hl, if_neg hstar, Function.comp]
        | none => simp [expandAux, branchKeys, hl, if_neg hstar]
    | null => simp [expandAux, branchKeys]
    | boolean b => simp [expandAux, branchKeys]
    | num n => simp [expandAux, branchKeys]
    | str s => simp [expandAux, branchKeys]
    | arr l => simp [expandAux, branchKeys]

theorem branchKeys_iff (parts : List String) :
    ∀ (v : JValue), v.wf = true → ∀ ks, ks ∈ branchKeys v parts ↔ ValidBranch v parts ks := by
  induction parts with
  | nil =>
    intro v hwf ks
    constructor
    · intro h
      simp only [branchKeys, List.mem_singleton] at h
      subst h
      exact ⟨rfl, by simp [safe_getO], by simp⟩
    · rintro ⟨hlen, _, _⟩
      have hks : ks = [] := List.eq_nil_of_length_eq_zero (by simpa using hlen)
      simp [branchKeys, hks]
  | cons part rest ih =>
    intro v hwf ks
    cases v with
    | obj es =>
      by_cases hstar : part = "*"
      · subst hstar
        simp only [branchKeys, if_pos rfl, if_true]
        constructor
        · intro h
          obtain ⟨kv, hkv, hmem⟩ := List.mem_flatMap.mp h
          obtain ⟨ks', hks', rfl⟩ := List.mem_map.mp hmem
          obtain ⟨hlen, hwalk, hlit⟩ := (ih kv.2 (wf_child hwf hkv) ks').mp hks'
          have hl : jlookup es kv.1 = some kv.2 := jlookup_of_mem_nodup (wf_nodup hwf) hkv
          refine ⟨by simp [hlen], by simp [safe_getO, hl, hwalk], ?_⟩
          intro pk hpk
          rw [List.zip_cons_cons, List.mem_cons] at hpk
          rcases hpk with heq | hmem2
          · subst heq; intro hne; exact absurd rfl hne
          · exact hlit pk hmem2
        · rintro ⟨hlen, hwalk, hlit⟩
          cases ks with
          | nil => simp at hlen
          | cons k ks' =>
            simp only [List.length_cons] at hlen
            have hlen' : ks'.length = rest.length := by omega
            simp only [safe_getO] at hwalk
            cases hl : jlookup es k with
            | none => rw [hl] at hwalk; simp at hwalk
            | some v' =>
              rw [hl] at hwalk
              have hkv : (k, v') ∈ es := jlookup_mem hl
              apply List.mem_flatMap.mpr
              refine ⟨(k, v'), hkv, ?_⟩
              apply List.mem_map.mpr
              refine ⟨ks', ?_, rfl⟩
              apply (ih v' (wf_child hwf hkv) ks').mpr
              refine ⟨hlen', hwalk, ?_⟩
              intro pk hpk
              exact hlit pk (by rw [List.zip_cons_cons]; exact List.mem_cons_of_mem _ hpk)
      · cases hl : jlookup es part with
        | some v' =>
          simp only [branchKeys, hl, if_neg hstar]
          constructor
          · intro h
            obtain ⟨ks', hks', rfl⟩ := List.mem_map.mp h
            obtain ⟨hlen, hwalk, hlit⟩ := (ih v' (wf_child hwf (jlookup_mem hl)) ks').mp hks'
            refine ⟨by simp [hlen], by simp [safe_getO, hl, hwalk], ?_⟩
            intro pk hpk
            rw [List.zip_cons_cons, List.mem_cons] at hpk
            rcases hpk with heq | hmem2
            · subst heq; intro _; rfl
            · exact hlit pk hmem2
          · rintro ⟨hlen, hwalk, hlit⟩
            cases ks with
            | nil => simp at hlen
            | cons k ks' =>
              simp only [List.length_cons] at hlen
              have hlen' : ks'.length = rest.length := by omega
              have hk : k = part :=
                hlit (part, k) (by rw [List.zip_cons_cons]; exact List.mem_cons_self _ _) hstar
              subst hk
              simp only [safe_getO, hl] at hwalk
              apply List.mem_map.mpr
              refine ⟨ks', ?_, rfl⟩
              apply (ih v' (wf_child hwf (jlookup_mem hl)) ks').mpr
              refine ⟨hlen', hwalk, ?_⟩
              intro pk hpk
              exact hlit pk (by rw [List.zip_cons_cons]; exact List.mem_cons_of_mem _ hpk)
        | none =>
          simp only [branchKeys, hl, if_neg hstar]
          constructor
          · intro h; simp at h
          · rintro ⟨hlen, hwalk, hlit⟩
            exfalso
            cases ks with
            | nil => simp at hlen
            | cons k ks' =>
              have hk : k = part :=
                hlit (part, k) (by rw [List.zip_cons_cons]; exact List.mem_cons_self _ _) hstar
              subst hk
              simp only [safe_getO, hl] at hwalk
              simp at hwalk
    | null =>
      constructor
      · intro h; simp [branchKeys] at h
      · rintro ⟨hlen, hwalk, _⟩
        exfalso
        cases ks with
        | nil => simp at hlen
        | cons k ks' => simp [safe_getO] at hwalk
    | boolean b =>
      constructor
      · intro h; simp [branchKeys] at h
      · rintro ⟨hlen, hwalk, _⟩
        exfalso
        cases ks with
        | nil => simp at hlen
        | cons k ks' => simp [safe_getO] at hwalk
    | num n =>
      constructor
      · intro h; simp [branchKeys] at h
      · rintro ⟨hlen, hwalk, _⟩
        exfalso
        cases ks with
        | nil => simp at hlen
        | cons k ks' => simp [safe_getO] at hwalk
    | str s =>
      constructor
      · intro h; simp [branchKeys] at h
      · rintro ⟨hlen, hwalk, _⟩
        exfalso
        cases ks with
        | nil => simp at hlen
        | cons k ks' => simp [safe_getO] at hwalk
    | arr l =>
      constructor
      · intro h; simp [branchKeys] at h
      · rintro ⟨hlen, hwalk, _⟩
        exfalso
        cases ks with
        | nil => simp at hlen
        | cons k ks' => simp [safe_getO] at hwalk


/-- C1: over a nested mapping (a tree of genuine dicts), `expand_wildcards`
yields exactly one (context, value) pair per traversal branch, in traversal
order: its output is the branch list mapped to pairs, each branch contributing
the context that binds, at each wildcard traversed, the positionally-taken (or
synthesized `level_i`) level name to the key chosen there, together with the
value reached by walking the chosen keys; and the branch list holds exactly
the key choices in which every literal segment's key exists and each wildcard
selects a key of the mapping at that level — a branch reaching a missing
literal key or a non-mapping node while segments remain contributes nothing.
The embedding is a total function, mirroring that no input raises. -/
theorem c1_expand_wildcards_yields_branches (data : JValue) (path : String)
    (names : List String) (hwf : data.wf = true) :
    expand_wildcards data path names =
      (branchKeys data (splitDot path)).map
        (fun ks => (ctxOfBranch names (splitDot path) ks [] 0, (safe_getO data ks).getD .null)) ∧
    ∀ ks, ks ∈ branchKeys data (splitDot path) ↔ ValidBranch data (splitDot path) ks :=
  ⟨expandAux_eq names (splitDot path) data hwf [] 0, branchKeys_iff (splitDot path) data hwf⟩

/-- Witness for C1: the theorem applied to a concrete profile, whose expansion
also evaluates to the two concrete (context, value) pairs, together with one
concretely valid branch. -/
theorem c1_expand_wildcards_yields_branches_witness :
    (expand_wildcards profileEx "emg.*.*.left" ["date", "session"] =
      (branchKeys profileEx (splitDot "emg.*.*.left")).map
        (fun ks => (ctxOfBranch ["date", "session"] (splitDot "emg.*.*.left") ks [] 0,
          (safe_getO profileEx ks).getD .null))) ∧
    expand_wildcards profileEx "emg.*.*.left" ["date", "session"] =
      [([("date", "2025-01-01"), ("session", "10-00-00")], .num 1),
       ([("date", "2025-01-01"), ("session", "11-00-00")], .num 2)] ∧
    ValidBranch profileEx (splitDot "emg.*.*.left")
      ["emg", "2025-01-01", "10-00-00", "left"] :=
  ⟨(c1_expand_wildcards_yields_branches profileEx "emg.*.*.left" ["date", "session"]
      (by decide)).1,
   rfl, by decide⟩

/-- C10: on the empty path, `expand_wildcards` looks up the empty string as a
literal key (the empty path splits into one empty segment) and so yields
nothing on any mapping without `""` as a key, while `resolve_path` returns the
whole profile: the two public entry points disagree on the empty path. -/
theorem c10_empty_path_disagreement (es : List (String × JValue))
    (names : List String) (d : JValue) (h : jlookup es "" = none) :
    expand_wildcards (.obj es) "" names = [] ∧
    resolve_path (.obj es) "" d = .obj es := by
  constructor
  · show expandAux names (splitDot "") (.obj es) [] 0 = []
    have hsplit : splitDot "" = [""] := rfl
    rw [hsplit]
    simp only [expandAux]
    rw [if_neg (by decide : ¬("" : String) = "*"), h]
  · simp [resolve_path]

/-- Witness for C10 at a one-key mapping without the empty key. -/
theorem c10_empty_path_disagreement_witness :
    jlookup [("a", JValue.null)] "" = none ∧
    expand_wildcards (.obj [("a", JValue.null)]) "" ["x"] = [] ∧
    resolve_path (.obj [("a", JValue.null)]) "" .null = .obj [("a", JValue.null)] :=
  ⟨rfl, (c10_empty_path_disagreement [("a", JValue.null)] ["x"] .null rfl).1,
   (c10_empty_path_disagreement [("a", JValue.null)] ["x"] .null rfl).2⟩

/-- C6: `include_keys` and `exclude_keys` each return a subsequence of the
input key list (relative order preserved), and a key matching any exclude
pattern never appears in the selected output, whichever way inclusion and
exclusion are composed: exclusion takes precedence over inclusion. -/
theorem c6_exclude_wins (keys inc exc : List String) :
    (include_keys keys inc).Sublist keys ∧
    (exclude_keys keys exc).Sublist keys ∧
    (∀ k, matches_pattern k exc = true →
      k ∉ exclude_keys (include_keys keys inc) exc ∧
      k ∉ include_keys (exclude_keys keys exc) inc) := by
  refine ⟨List.filter_sublist _, List.filter_sublist _, ?_⟩
  intro k hk
  constructor
  · intro hmem
    have hpk := List.of_mem_filter hmem
    rw [hk] at hpk
    simp at hpk
  · intro hmem
    have h1 : k ∈ exclude_keys keys exc := List.mem_of_mem_filter hmem
    have hpk := List.of_mem_filter h1
    rw [hk] at hpk
    simp at hpk

/-- Witness for C6: `"EMG_daily_metrics"` matches both the include pattern
`"EMG_*"` and the exclude pattern `"*daily*"`, and is not selected. -/
theorem c6_exclude_wins_witness :
    matches_pattern "EMG_daily_metrics" ["*daily*"] = true ∧
    matches_pattern "EMG_daily_metrics" ["EMG_*"] = true ∧
    "EMG_daily_metrics" ∉
      exclude_keys (include_keys ["EMG_daily_metrics", "EMG_weekly_metrics"] ["EMG_*"])
        ["*daily*"] :=
  ⟨by decide, by decide,
   ((c6_exclude_wins ["EMG_daily_metrics", "EMG_weekly_metrics"] ["EMG_*"] ["*daily*"]).2.2
     "EMG_daily_metrics" (by decide)).1⟩

theorem foldl_append_filter {α : Type} (p : α → Bool) (l : List α) :
    ∀ acc : List α,
      l.foldl (fun res x => if p x then res ++ [x] else res) acc = acc ++ l.filter p := by
  induction l with
  | nil => intro acc; simp
  | cons a l ih =>
    intro acc
    simp only [List.foldl_cons, List.filter_cons]
    by_cases h : p a
    · rw [if_pos h, ih, if_pos h]
      simp
    · rw [if_neg h, ih, if_neg h]

theorem keepSubject_iff (f : Filters) (sid : String) (p : JValue) :
    keepSubject f sid p = true ↔ PassesFilters f sid p := by
  unfold keepSubject PassesFilters
  constructor
  · intro h
    simp only [Bool.and_eq_true] at h
    obtain ⟨⟨⟨⟨h1, h2⟩, h3⟩, h4⟩, h5⟩ := h
    refine ⟨?_, ?_, ?_, ?_, ?_⟩
    · intro l hl; rw [hl] at h1; simpa using h1
    · intro l hl; rw [hl] at h2; simpa using h2
    · intro l hl; rw [hl] at h3; exact h3
    · intro l hl k hk
      rw [hl] at h4
      exact List.all_eq_true.mp h4 k hk
    · intro g hg; rw [hg] at h5; exact h5
  · rintro ⟨h1, h2, h3, h4, h5⟩
    simp only [Bool.and_eq_true]
    refine ⟨⟨⟨⟨?_, ?_⟩, ?_⟩, ?_⟩, ?_⟩
    · cases hl : f.subject_ids with
      | none => rfl
      | some l => simpa using h1 l hl
    · cases hl : f.exclude_subjects with
      | none => rfl
      | some l => simpa using h2 l hl
    · cases hl : f.groups with
      | none => rfl
      | some l => exact h3 l hl
    · cases hl : f.require_keys with
      | none => rfl
      | some l => exact List.all_eq_true.mpr (h4 l hl)
    · cases hg : f.custom_filter with
      | none => rfl
      | some g => exact h5 g hg

/-- C7: `apply_subject_filters` with `None` filters is the identity; with a
filters record it returns exactly the (subject_id, profile) pairs passing the
per-pair test — the short-circuit conjunction of the configured criteria in
source order — keeping the profiles' original key order (a subsequence of the
input), and a pair is retained precisely when it passes every configured
(non-null) criterion. -/
theorem c7_apply_subject_filters (profiles : List (String × JValue)) (f : Filters) :
    apply_subject_filters profiles none = profiles ∧
    apply_subject_filters profiles (some f) =
      profiles.filter (fun x => keepSubject f x.1 x.2) ∧
    (apply_subject_filters profiles (some f)).Sublist profiles ∧
    (∀ x : String × JValue, x ∈ apply_subject_filters profiles (some f) ↔
      x ∈ profiles ∧ PassesFilters f x.1 x.2) := by
  have hfilter : apply_subject_filters profiles (some f) =
      profiles.filter (fun x => keepSubject f x.1 x.2) := by
    show profiles.foldl _ [] = _
    rw [foldl_append_filter]
    simp
  refine ⟨rfl, hfilter, ?_, ?_⟩
  · rw [hfilter]; exact List.filter_sublist _
  · intro x
    rw [hfilter, List.mem_filter, keepSubject_iff]

/-- Witness for C7 at a concrete profiles dict and filter record. -/
theorem c7_apply_subject_filters_witness :
    apply_subject_filters [("S1", profileEx), ("S2", JValue.obj [])]
      (some (create_filters (some ["S1", "S2"]) (some ["S2"]) none none
        (some ["emg"]) none)) = [("S1", profileEx)] ∧
    (("S1", profileEx) ∈ apply_subject_filters [("S1", profileEx), ("S2", JValue.obj [])]
        (some (create_filters (some ["S1", "S2"]) (some ["S2"]) none none
          (some ["emg"]) none)) ↔
      ("S1", profileEx) ∈ [("S1", profileEx), ("S2", JValue.obj [])] ∧
        PassesFilters (create_filters (some ["S1", "S2"]) (some ["S2"]) none none
          (some ["emg"]) none) "S1" profileEx) ∧
    apply_subject_filters [("S1", profileEx), ("S2", JValue.obj [])] none =
      [("S1", profileEx), ("S2", JValue.obj [])] :=
  ⟨rfl,
   (c7_apply_subject_filters [("S1", profileEx), ("S2", JValue.obj [])]
     (create_filters (some ["S1", "S2"]) (some ["S2"]) none none
       (some ["emg"]) none)).2.2.2 ("S1", profileEx),
   (c7_apply_subject_filters [("S1", profileEx), ("S2", JValue.obj [])]
     (create_filters (some ["S1", "S2"]) (some ["S2"]) none none
       (some ["emg"]) none)).1⟩

/-- C9: `apply_subject_filters` is independent of the `date_range` field — two
filter records identical except for `date_range` (one may be `none` and the
other set) filter every profiles dict identically.  Date-range filtering is
the separate key-level `filter_date_keys`, which `apply_subject_filters`'s
embedding does not reference. -/
theorem c9_date_range_independent (profiles : List (String × JValue))
    (f : Filters) (dr1 dr2 : Option (String × String)) :
    apply_subject_filters profiles (some { f with date_range := dr1 }) =
      apply_subject_filters profiles (some { f with date_range := dr2 }) ∧
    ∀ (a b c : Option (List String)) (rk : Option (List String))
      (cf : Option (String → JValue → Bool)),
      apply_subject_filters profiles (some (create_filters a b c dr1 rk cf)) =
        apply_subject_filters profiles (some (create_filters a b c dr2 rk cf)) :=
  ⟨rfl, fun _ _ _ _ _ => rfl⟩

theorem nodup_const_length_le_one {α : Type} {l : List α} {k : α}
    (hnd : l.Nodup) (hall : ∀ x ∈ l, x = k) : l.length ≤ 1 := by
  cases l with
  | nil => simp
  | cons a t =>
    cases t with
    | nil => simp
    | cons b t2 =>
      exfalso
      have ha := hall a (by simp)
      have hb := hall b (by simp)
      rw [List.nodup_cons] at hnd
      exact hnd.1 (by rw [ha, hb]; simp)

theorem filter_key_length_le_one (B : List (MKey × List (Option Int))) (k : MKey)
    (hB : (B.map Prod.fst).Nodup) :
    (B.filter (fun b => b.1 == k)).length ≤ 1 := by
  have h1 : ((B.filter (fun b => b.1 == k)).map Prod.fst).Nodup :=
    hB.sublist ((List.filter_sublist B).map Prod.fst)
  have h2 : ∀ x ∈ (B.filter (fun b => b.1 == k)).map Prod.fst, x = k := by
    intro x hx
    obtain ⟨b, hb, rfl⟩ := List.mem_map.mp hx
    have := List.of_mem_filter hb
    exact beq_iff_eq.mp this
  calc (B.filter (fun b => b.1 == k)).length
      = ((B.filter (fun b => b.1 == k)).map Prod.fst).length := (List.length_map _ _).symm
    _ ≤ 1 := nodup_const_length_le_one h1 h2

theorem length_flatMap_eq_length {α β : Type} (l : List α) (f : α → List β)
    (h : ∀ a ∈ l, (f a).length = 1) : (l.flatMap f).length = l.length := by
  induction l with
  | nil => simp
  | cons a t ih =>
    rw [List.flatMap_cons, List.length_append, h a (by simp),
      ih (fun x hx => h x (by simp [hx]))]
    simp only [List.length_cons]
    omega

theorem length_filter_add_length_filter_not {α : Type} (l : List α) (p : α → Bool) :
    (l.filter p).length + (l.filter (fun x => !p x)).length = l.length := by
  induction l with
  | nil => simp
  | cons a t ih =>
    by_cases h : p a = true
    · rw [List.filter_cons, List.filter_cons, if_pos h,
        if_neg (by rw [h]; simp)]
      simp only [List.length_cons]
      omega
    · rw [Bool.not_eq_true] at h
      rw [List.filter_cons, List.filter_cons, if_neg (by rw [h]; simp),
        if_pos (by rw [h]; simp)]
      simp only [List.length_cons]
      omega

theorem all_not_eq_not_any {α : Type} (A : List α) (p : α → Bool) :
    A.all (fun a => !p a) = !A.any p := by
  induction A with
  | nil => simp
  | cons a t ih => simp [List.all_cons, List.any_cons, ih]

theorem matched_le (A B : List (MKey × List (Option Int)))
    (hB : (B.map Prod.fst).Nodup) :
    (B.filter (fun b => A.any (fun a => a.1 == b.1))).length ≤ A.length := by
  have h1 : ((B.filter (fun b => A.any (fun a => a.1 == b.1))).map Prod.fst).Nodup :=
    hB.sublist ((List.filter_sublist B).map Prod.fst)
  have h2 : (B.filter (fun b => A.any (fun a => a.1 == b.1))).map Prod.fst ⊆
      A.map Prod.fst := by
    intro x hx
    obtain ⟨b, hb, rfl⟩ := List.mem_map.mp hx
    have hany := List.of_mem_filter hb
    obtain ⟨a, ha, hak⟩ := List.any_eq_true.mp hany
    exact List.mem_map.mpr ⟨a, ha, beq_iff_eq.mp hak⟩
  calc (B.filter (fun b => A.any (fun a => a.1 == b.1))).length
      = ((B.filter (fun b => A.any (fun a => a.1 == b.1))).map Prod.fst).length :=
        (List.length_map _ _).symm
    _ ≤ (A.map Prod.fst).length := (h1.subperm h2).length_le
    _ = A.length := List.length_map _ _

theorem outerMerge_length (A B : MTable) (hB : (B.rows.map Prod.fst).Nodup) :
    (outerMerge A B).rows.length =
      A.rows.length +
        (B.rows.filter (fun b => A.rows.all (fun a => !(a.1 == b.1)))).length := by
  unfold outerMerge
  simp only [List.length_append, List.length_map]
  congr 1
  apply length_flatMap_eq_length
  intro a ha
  by_cases hms : (B.rows.filter (fun b => b.1 == a.1)).isEmpty = true
  · simp [hms]
  · rw [if_neg hms, List.length_map]
    have hle := filter_key_length_le_one B.rows a.1 hB
    have hge : 1 ≤ (B.rows.filter (fun b => b.1 == a.1)).length := by
      rw [Nat.one_le_iff_ne_zero]
      intro h0
      rw [List.isEmpty_iff, ← List.length_eq_zero] at hms
      exact hms h0
    omega

/-- C2 (amended): for two tables with the shared key columns in which no key
combination is duplicated within a table — as holds for the extracted frames
the code merges — the combination step's row count r satisfies
max(|A|,|B|) <= r <= |A|+|B|; unconditionally, combining a non-empty table
with an empty one returns the non-empty table unchanged, and combining two
empty tables yields an empty table. -/
theorem c2_merge_row_bounds (A B : MTable)
    (_hA : (A.rows.map Prod.fst).Nodup) (hB : (B.rows.map Prod.fst).Nodup) :
    (max A.rows.length B.rows.length ≤ (mergeStep A B).rows.length ∧
     (mergeStep A B).rows.length ≤ A.rows.length + B.rows.length) ∧
    (∀ E : MTable, E.rows = [] →
      (A.rows ≠ [] → mergeStep A E = A ∧ mergeStep E A = A) ∧
      (mergeStep E E).rows = []) := by
  constructor
  · by_cases hA0 : A.rows = []
    · by_cases hB0 : B.rows = []
      · have hm : (mergeStep A B).rows = [] := by
          simp [mergeStep, hA0, hB0]
        rw [hm, hA0, hB0]
        simp
      · have hm : mergeStep A B = B := by
          simp [mergeStep, hA0, hB0, List.isEmpty_iff]
        rw [hm, hA0]
        simp
    · by_cases hB0 : B.rows = []
      · have hm : mergeStep A B = A := by
          simp [mergeStep, hA0, hB0, List.isEmpty_iff]
        rw [hm, hB0]
        simp
      · have hm : mergeStep A B = outerMerge A B := by
          simp [mergeStep, hA0, hB0, List.isEmpty_iff]
        rw [hm, outerMerge_length A B hB]
        constructor
        · apply max_le
          · omega
          · have hsplit := length_filter_add_length_filter_not B.rows
              (fun b => A.rows.any (fun a => a.1 == b.1))
            have hmle := matched_le A.rows B.rows hB
            have hcongr : B.rows.filter (fun b => A.rows.all (fun a => !(a.1 == b.1))) =
                B.rows.filter (fun b => !(A.rows.any (fun a => a.1 == b.1))) := by
              apply List.filter_congr
              intro b _
              exact all_not_eq_not_any A.rows (fun a => a.1 == b.1)
            rw [hcongr]
            omega
        · have := List.length_filter_le
            (fun b => A.rows.all (fun a => !(a.1 == b.1))) B.rows
          omega
  · intro E hE
    refine ⟨fun hA0 => ⟨?_, ?_⟩, ?_⟩
    · simp [mergeStep, hE, hA0, List.isEmpty_iff]
    · simp [mergeStep, hE, hA0, List.isEmpty_iff]
    · simp [mergeStep, hE]

/-- C2 counterexample: with a key combination duplicated inside both tables
the outer join multiplies the matches — two rows keyed alike merged with
three rows keyed alike produce 6 rows, exceeding |A| + |B| = 5 — so the
claimed upper bound fails for arbitrary tables. -/
theorem c2_merge_row_bounds_counterexample :
    ¬ ((mergeStep
          { cols := ["x"], rows := [(("S1", "w", "d", "s"), [some 1]),
                                    (("S1", "w", "d", "s"), [some 2])] }
          { cols := ["y"], rows := [(("S1", "w", "d", "s"), [some 3]),
                                    (("S1", "w", "d", "s"), [some 4]),
                                    (("S1", "w", "d", "s"), [some 5])] }).rows.length ≤
        ({ cols := ["x"], rows := [(("S1", "w", "d", "s"), [some 1]),
                                   (("S1", "w", "d", "s"), [some 2])] } : MTable).rows.length +
        ({ cols := ["y"], rows := [(("S1", "w", "d", "s"), [some 3]),
                                   (("S1", "w", "d", "s"), [some 4]),
                                   (("S1", "w", "d", "s"), [some 5])] } : MTable).rows.length) := by
  decide

/-- Witness for C2 at concrete key-unique tables and an empty table. -/
theorem c2_merge_row_bounds_witness :
    (max ({ cols := ["x"], rows := [(("S1", "w", "d1", "s"), [some 1]),
                                    (("S1", "w", "d2", "s"), [some 2])] } : MTable).rows.length
         ({ cols := ["y"], rows := [(("S1", "w", "d1", "s"), [some 7])] } : MTable).rows.length ≤
      (mergeStep
        { cols := ["x"], rows := [(("S1", "w", "d1", "s"), [some 1]),
                                  (("S1", "w", "d2", "s"), [some 2])] }
        { cols := ["y"], rows := [(("S1", "w", "d1", "s"), [some 7])] }).rows.length) ∧
    mergeStep
        { cols := ["x"], rows := [(("S1", "w", "d1", "s"), [some 1]),
                                  (("S1", "w", "d2", "s"), [some 2])] }
        { cols := ["y"], rows := [] } =
      { cols := ["x"], rows := [(("S1", "w", "d1", "s"), [some 1]),
                                (("S1", "w", "d2", "s"), [some 2])] } :=
  ⟨((c2_merge_row_bounds
      { cols := ["x"], rows := [(("S1", "w", "d1", "s"), [some 1]),
                                (("S1", "w", "d2", "s"), [some 2])] }
      { cols := ["y"], rows := [(("S1", "w", "d1", "s"), [some 7])] }
      (by decide) (by decide)).1).1,
   (((c2_merge_row_bounds
      { cols := ["x"], rows := [(("S1", "w", "d1", "s"), [some 1]),
                                (("S1", "w", "d2", "s"), [some 2])] }
      { cols := ["y"], rows := [(("S1", "w", "d1", "s"), [some 7])] }
      (by decide) (by decide)).2 { cols := ["y"], rows := [] } rfl).1 (by decide)).1⟩

/-- C8 (amended): when the table has a side column, every side-handling mode
outside {"left","right","both","average"} makes `_handle_sides` raise a
ValueError surfaced to the caller, and every recognized mode raises no error;
but a table without a side column is returned untouched before the mode is
ever validated, so an unrecognized mode raises nothing there. -/
theorem c8_handle_sides_validation (df : PrepTable) (mode : String) :
    (df.hasSide = true → mode ∉ sideOptions →
      handle_sides df mode = .error ("Unknown side option: " ++ mode)) ∧
    (mode ∈ sideOptions → ∃ out, handle_sides df mode = .ok out) := by
  constructor
  · intro hs hm
    simp only [sideOptions, List.mem_cons, List.not_mem_nil, or_false, not_or] at hm
    obtain ⟨h1, h2, h3, h4⟩ := hm
    unfold handle_sides
    rw [hs]
    simp [h1, h2, h3, h4]
  · intro hm
    simp only [sideOptions, List.mem_cons, List.not_mem_nil, or_false] at hm
    by_cases hs : df.hasSide = true
    · rcases hm with h | h | h | h <;> subst h
      · exact ⟨({ df with
                    hasSide := false,
                    rows := df.rows.filter (fun r => r.side == "left") }, []),
          by unfold handle_sides; rw [hs]; simp⟩
      · exact ⟨({ df with
                    hasSide := false,
                    rows := df.rows.filter (fun r => r.side == "right") }, []),
          by unfold handle_sides; rw [hs]; simp⟩
      · exact ⟨(df, ["side"]), by unfold handle_sides; rw [hs]; simp⟩
      · unfold handle_sides
        rw [hs]
        simp only [Bool.not_true, Bool.false_eq_true, if_false, String.reduceBEq,
          reduceIte]
        split
        · exact ⟨(df, ["side"]), rfl⟩
        · exact ⟨_, rfl⟩
    · have hs' : df.hasSide = false := by
        revert hs; cases df.hasSide <;> simp
      exact ⟨(df, []), by unfold handle_sides; rw [hs']; simp⟩

/-- C8 counterexample: on a table without a side column, the unrecognized mode
"banana" raises nothing — the data is returned — refuting the claim that every
unrecognized mode raises immediately. -/
theorem c8_handle_sides_validation_counterexample :
    handle_sides
        { hasSide := false, valCols := ["m"],
          rows := [{ subject_id := "S1", date := "06-01-2025", side := "left",
                     vals := [some 1] }] } "banana" =
      .ok ({ hasSide := false, valCols := ["m"],
             rows := [{ subject_id := "S1", date := "06-01-2025", side := "left",
                        vals := [some 1] }] }, []) := rfl

/-- Witness for C8: a concrete side-bearing table errors on "banana" and
succeeds on "both". -/
theorem c8_handle_sides_validation_witness :
    handle_sides
        { hasSide := true, valCols := ["m"],
          rows := [{ subject_id := "S1", date := "06-01-2025", side := "left",
                     vals := [some 1] }] } "banana" =
      .error ("Unknown side option: " ++ "banana") ∧
    (∃ out, handle_sides
        { hasSide := true, valCols := ["m"],
          rows := [{ subject_id := "S1", date := "06-01-2025", side := "left",
                     vals := [some 1] }] } "both" = .ok out) :=
  ⟨(c8_handle_sides_validation
      { hasSide := true, valCols := ["m"],
        rows := [{ subject_id := "S1", date := "06-01-2025", side := "left",
                   vals := [some 1] }] } "banana").1 rfl (by decide),
   (c8_handle_sides_validation
      { hasSide := true, valCols := ["m"],
        rows := [{ subject_id := "S1", date := "06-01-2025", side := "left",
                   vals := [some 1] }] } "both").2 (by decide)⟩
theorem fillRow_length (js : List Nat) (r : List (Option Int)) :
    (fillRow js r).length = r.length := by
  unfold fillRow
  rw [List.length_map, List.enum_length]

theorem fillRow_getD (js : List Nat) (r : List (Option Int)) (j : Nat) :
    (fillRow js r).getD j none =
      if js.contains j = true ∧ r.getD j none = none ∧ j < r.length then some 0
      else r.getD j none := by
  by_cases hj : j < r.length
  · have hlen : j < (fillRow js r).length := by rw [fillRow_length]; exact hj
    rw [List.getD_eq_getElem _ _ hlen, List.getD_eq_getElem _ _ hj]
    have hval : (fillRow js r)[j] =
        if js.contains j && (r[j]).isNone then some 0 else r[j] := by
      unfold fillRow
      rw [List.getElem_map, List.getElem_enum]
    rw [hval]
    have hiff : (js.contains j && (r[j]).isNone) = true ↔
        js.contains j = true ∧ r[j] = none ∧ j < r.length := by
      rw [Bool.and_eq_true, Option.isNone_iff_eq_none]
      exact ⟨fun h => ⟨h.1, h.2, hj⟩, fun h => ⟨h.1, h.2.1⟩⟩
    exact if_congr hiff rfl rfl
  · have hge : r.length ≤ j := Nat.le_of_not_lt hj
    have h1 : (fillRow js r).getD j none = none := by
      apply List.getD_eq_default
      rw [fillRow_length]; exact hge
    have h2 : r.getD j none = none := List.getD_eq_default _ _ hge
    rw [h1, h2, if_neg]
    intro hcontra
    exact hj hcontra.2.2

theorem applyGroup_rows_length (js : List Nat) (rows : List (List (Option Int))) :
    (applyGroup js rows).length = rows.length := by
  unfold applyGroup
  rw [List.length_map]

theorem applyGroup_getD (js : List Nat) (rows : List (List (Option Int))) (i : Nat) :
    (applyGroup js rows).getD i [] =
      if rowHasAny js (rows.getD i []) = true then fillRow js (rows.getD i [])
      else rows.getD i [] := by
  by_cases hi : i < rows.length
  · have hi2 : i < (applyGroup js rows).length := by rw [applyGroup_rows_length]; exact hi
    rw [List.getD_eq_getElem _ _ hi2, List.getD_eq_getElem _ _ hi]
    unfold applyGroup
    rw [List.getElem_map]
  · have hge : rows.length ≤ i := Nat.le_of_not_lt hi
    have h1 : (applyGroup js rows).getD i [] = [] := by
      apply List.getD_eq_default
      rw [applyGroup_rows_length]; exact hge
    have h2 : rows.getD i [] = [] := List.getD_eq_default _ _ hge
    rw [h1, h2]
    have h3 : rowHasAny js ([] : List (Option Int)) = false := by
      unfold rowHasAny
      simp [List.getD]
    rw [h3]
    simp

theorem applyGroup_row_length (js : List Nat) (rows : List (List (Option Int))) (i : Nat) :
    ((applyGroup js rows).getD i []).length = (rows.getD i []).length := by
  rw [applyGroup_getD]
  by_cases h : rowHasAny js (rows.getD i []) = true
  · rw [if_pos h, fillRow_length]
  · rw [if_neg h]

theorem applyGroup_cellAt (js : List Nat) (rows : List (List (Option Int))) (i j : Nat) :
    cellAt (applyGroup js rows) i j =
      if rowHasAny js (rows.getD i []) = true ∧ cellAt rows i j = none ∧
         js.contains j = true ∧ j < (rows.getD i []).length
      then some 0 else cellAt rows i j := by
  unfold cellAt
  rw [applyGroup_getD]
  by_cases ha : rowHasAny js (rows.getD i []) = true
  · rw [if_pos ha, fillRow_getD]
    by_cases hc : js.contains j = true ∧ (rows.getD i []).getD j none = none ∧
        j < (rows.getD i []).length
    · rw [if_pos hc, if_pos ⟨ha, hc.2.1, hc.1, hc.2.2⟩]
    · rw [if_neg hc, if_neg]
      intro hcontra
      exact hc ⟨hcontra.2.2.1, hcontra.2.1, hcontra.2.2.2⟩
  · rw [if_neg ha, if_neg]
    intro hcontra
    exact ha hcontra.1

theorem applyGroup_cellAt_untouched (js : List Nat) (rows : List (List (Option Int)))
    (i j : Nat) (h : js.contains j = false) :
    cellAt (applyGroup js rows) i j = cellAt rows i j := by
  rw [applyGroup_cellAt, if_neg]
  intro hcontra
  rw [h] at hcontra
  exact Bool.false_ne_true hcontra.2.2.1

theorem groupJoin_eq_nil_of_not_mem (gs : List (String × List Nat)) (p : String)
    (h : p ∉ gs.map Prod.fst) : groupJoin gs p = [] := by
  unfold groupJoin
  rw [List.filter_eq_nil_iff.mpr]
  · rfl
  · intro g hg
    intro hcontra
    exact h (List.mem_map.mpr ⟨g, hg, (beq_iff_eq.mp hcontra).symm ▸ rfl⟩)

theorem insertGroup_cons_pos (q : String) (js : List Nat)
    (rest : List (String × List Nat)) (p : String) (j : Nat) (h : q = p) :
    insertGroup ((q, js) :: rest) p j = (q, js ++ [j]) :: rest := by
  unfold insertGroup
  rw [if_pos h]

theorem insertGroup_cons_neg (q : String) (js : List Nat)
    (rest : List (String × List Nat)) (p : String) (j : Nat) (h : ¬q = p) :
    insertGroup ((q, js) :: rest) p j = (q, js) :: insertGroup rest p j := by
  conv_lhs => unfold insertGroup
  rw [if_neg h]

theorem insertGroup_map_fst (gs : List (String × List Nat)) (p : String) (j : Nat) :
    (insertGroup gs p j).map Prod.fst =
      if p ∈ gs.map Prod.fst then gs.map Prod.fst else gs.map Prod.fst ++ [p] := by
  induction gs with
  | nil => simp [insertGroup]
  | cons g rest ih =>
    obtain ⟨q, js⟩ := g
    by_cases hq : q = p
    · subst hq
      rw [insertGroup_cons_pos q js rest q j rfl]
      simp
    · rw [insertGroup_cons_neg q js rest p j hq]
      simp only [List.map_cons, ih, List.mem_cons]
      by_cases hmem : p ∈ rest.map Prod.fst
      · rw [if_pos hmem, if_pos (Or.inr hmem)]
      · rw [if_neg hmem, if_neg]
        · simp
        · intro hcontra
          rcases hcontra with h1 | h2
          · exact hq h1.symm
          · exact hmem h2

theorem insertGroup_fst_nodup (gs : List (String × List Nat)) (p : String) (j : Nat)
    (h : (gs.map Prod.fst).Nodup) : ((insertGroup gs p j).map Prod.fst).Nodup := by
  rw [insertGroup_map_fst]
  by_cases hmem : p ∈ gs.map Prod.fst
  · rw [if_pos hmem]; exact h
  · rw [if_neg hmem]
    simp [List.nodup_append, h, hmem]

theorem groupJoin_cons (a : String) (js : List Nat)
    (rest : List (String × List Nat)) (q : String) :
    groupJoin ((a, js) :: rest) q =
      if a = q then js ++ groupJoin rest q else groupJoin rest q := by
  unfold groupJoin
  rw [List.filter_cons]
  by_cases h : a = q
  · rw [if_pos (by simp [h]), if_pos h, List.flatMap_cons]
  · rw [if_neg (by simp [h]), if_neg h]

theorem groupJoin_insertGroup (gs : List (String × List Nat)) (p0 : String) (j : Nat)
    (hnd : (gs.map Prod.fst).Nodup) (q : String) :
    groupJoin (insertGroup gs p0 j) q =
      if q = p0 then groupJoin gs q ++ [j] else groupJoin gs q := by
  induction gs with
  | nil =>
    rw [show insertGroup [] p0 j = [(p0, [j])] from rfl,
      groupJoin_cons p0 [j] [] q]
    by_cases hq : q = p0
    · subst hq
      rw [if_pos rfl, if_pos rfl]
      rfl
    · rw [if_neg (show ¬p0 = q from fun hcontra => hq hcontra.symm), if_neg hq]
  | cons g rest ih =>
    obtain ⟨a, js⟩ := g
    simp only [List.map_cons, List.nodup_cons] at hnd
    by_cases ha : a = p0
    · subst ha
      rw [insertGroup_cons_pos a js rest a j rfl]
      rw [groupJoin_cons a (js ++ [j]) rest q, groupJoin_cons a js rest q]
      by_cases hq : q = a
      · subst hq
        rw [if_pos rfl, if_pos rfl, if_pos rfl]
        have hrest : groupJoin rest q = [] :=
          groupJoin_eq_nil_of_not_mem rest q hnd.1
        rw [hrest]
        simp
      · rw [if_neg (show ¬a = q from fun hcontra => hq hcontra.symm),
          if_neg (show ¬a = q from fun hcontra => hq hcontra.symm), if_neg hq]
    · rw [insertGroup_cons_neg a js rest p0 j ha]
      rw [groupJoin_cons a js (insertGroup rest p0 j) q,
        groupJoin_cons a js rest q, ih hnd.2]
      by_cases haq : a = q
      · rw [if_pos haq, if_pos haq]
        by_cases hq : q = p0
        · exfalso
          exact ha (haq.trans hq)
        · rw [if_neg hq, if_neg hq]
      · rw [if_neg haq, if_neg haq]

theorem foldl_insertGroup_inv (pr : Nat → String) (l : List Nat) :
    ∀ acc : List (String × List Nat), (acc.map Prod.fst).Nodup →
      (((l.foldl (fun a j => insertGroup a (pr j) j) acc).map Prod.fst).Nodup ∧
       ∀ p, groupJoin (l.foldl (fun a j => insertGroup a (pr j) j) acc) p =
         groupJoin acc p ++ l.filter (fun j => pr j == p)) := by
  induction l with
  | nil => intro acc hnd; exact ⟨hnd, fun p => by simp⟩
  | cons j t ih =>
    intro acc hnd
    rw [List.foldl_cons]
    obtain ⟨ihnd, ihjoin⟩ := ih (insertGroup acc (pr j) j) (insertGroup_fst_nodup acc (pr j) j hnd)
    refine ⟨ihnd, fun p => ?_⟩
    rw [ihjoin p, groupJoin_insertGroup acc (pr j) j hnd p, List.filter_cons]
    by_cases hp : p = pr j
    · rw [if_pos (show (pr j == p) = true from by rw [hp]; simp), if_pos hp]
      simp
    · rw [if_neg (show ¬(pr j == p) = true from by
        simp only [beq_iff_eq]
        exact fun hcontra => hp hcontra.symm), if_neg hp]

theorem buildGroups_nodup (cols : List String) :
    ((buildGroups cols).map Prod.fst).Nodup :=
  (foldl_insertGroup_inv (fun j => prefixOf (cols.getD j ""))
    ((List.range cols.length).filter (fun j => isMetricCol (cols.getD j ""))) []
    (by simp)).1

theorem buildGroups_join (cols : List String) (p : String) :
    groupJoin (buildGroups cols) p =
      ((List.range cols.length).filter (fun j => isMetricCol (cols.getD j ""))).filter
        (fun j => prefixOf (cols.getD j "") == p) := by
  have h := (foldl_insertGroup_inv (fun j => prefixOf (cols.getD j ""))
    ((List.range cols.length).filter (fun j => isMetricCol (cols.getD j ""))) []
    (by simp)).2 p
  unfold buildGroups
  rw [h]
  rfl

theorem groupJoin_of_mem_nodup (gs : List (String × List Nat)) (p : String)
    (js : List Nat) (hnd : (gs.map Prod.fst).Nodup) (hm : (p, js) ∈ gs) :
    groupJoin gs p = js := by
  induction gs with
  | nil => simp at hm
  | cons g rest ih =>
    obtain ⟨a, bs⟩ := g
    simp only [List.map_cons, List.nodup_cons] at hnd
    rw [groupJoin_cons a bs rest p]
    rcases List.mem_cons.mp hm with heq | hmem
    · have h1 : p = a := congrArg Prod.fst heq
      have h2 : js = bs := congrArg Prod.snd heq
      subst h1
      subst h2
      rw [if_pos rfl, groupJoin_eq_nil_of_not_mem rest p hnd.1]
      simp
    · have ha : ¬a = p := by
        intro hcontra
        subst hcontra
        exact hnd.1 (List.mem_map.mpr ⟨(a, js), hmem, rfl⟩)
      rw [if_neg ha]
      exact ih hnd.2 hmem

theorem buildGroups_mem_eq (cols : List String) (p : String) (js : List Nat)
    (hm : (p, js) ∈ buildGroups cols) :
    js = ((List.range cols.length).filter (fun j => isMetricCol (cols.getD j ""))).filter
      (fun j => prefixOf (cols.getD j "") == p) := by
  rw [← groupJoin_of_mem_nodup (buildGroups cols) p js (buildGroups_nodup cols) hm,
    buildGroups_join]

theorem groupIdxsOf_eq (cols : List String) (j : Nat) :
    groupIdxsOf cols j =
      ((List.range cols.length).filter (fun j2 => isMetricCol (cols.getD j2 ""))).filter
        (fun j2 => prefixOf (cols.getD j2 "") == prefixOf (cols.getD j "")) := by
  unfold groupIdxsOf
  rw [List.filter_filter]
  apply List.filter_congr
  intro a _
  exact Bool.and_comm _ _

theorem buildGroups_member_pref (cols : List String) {p : String} {js : List Nat}
    {j : Nat} (hm : (p, js) ∈ buildGroups cols) (hj : j ∈ js) :
    prefixOf (cols.getD j "") = p := by
  rw [buildGroups_mem_eq cols p js hm] at hj
  have h2 := List.of_mem_filter hj
  simp only [beq_iff_eq] at h2
  exact h2

theorem buildGroups_member_metric (cols : List String) {p : String} {js : List Nat}
    {j : Nat} (hm : (p, js) ∈ buildGroups cols) (hj : j ∈ js) :
    j ∈ (List.range cols.length).filter (fun j2 => isMetricCol (cols.getD j2 "")) := by
  rw [buildGroups_mem_eq cols p js hm] at hj
  exact List.mem_of_mem_filter hj

theorem find?_unique_mem {α : Type} {l : List α} {pred : α → Bool} {x : α}
    (hx : x ∈ l) (hpx : pred x = true) (huniq : ∀ y ∈ l, pred y = true → y = x) :
    l.find? pred = some x := by
  induction l with
  | nil => simp at hx
  | cons a rest ih =>
    by_cases hpa : pred a = true
    · have ha : a = x := huniq a (by simp) hpa
      subst ha
      rw [List.find?_cons_of_pos _ hpa]
    · rcases List.mem_cons.mp hx with heq | hmem
      · subst heq; exact absurd hpx hpa
      · rw [List.find?_cons_of_neg _ (by rw [Bool.not_eq_true] at hpa; rw [hpa]; simp)]
        exact ih hmem (fun y hy hpy => huniq y (List.mem_cons_of_mem _ hy) hpy)

theorem buildGroups_find?_metric (cols : List String) (j : Nat)
    (hj : j ∈ (List.range cols.length).filter (fun j2 => isMetricCol (cols.getD j2 ""))) :
    (buildGroups cols).find? (fun g => g.2.contains j) =
      some (prefixOf (cols.getD j ""), groupIdxsOf cols j) := by
  have hjmem : j ∈ groupJoin (buildGroups cols) (prefixOf (cols.getD j "")) := by
    rw [buildGroups_join]
    exact List.mem_filter.mpr ⟨hj, by simp⟩
  obtain ⟨g, hg, hjg⟩ : ∃ g ∈ buildGroups cols, j ∈ g.2 := by
    unfold groupJoin at hjmem
    obtain ⟨g, hgf, hjg⟩ := List.mem_flatMap.mp hjmem
    exact ⟨g, List.mem_of_mem_filter hgf, hjg⟩
  obtain ⟨p, js⟩ := g
  have hpj : prefixOf (cols.getD j "") = p := buildGroups_member_pref cols hg hjg
  have hentry : (p, js) = (prefixOf (cols.getD j ""), groupIdxsOf cols j) := by
    rw [hpj, buildGroups_mem_eq cols p js hg, groupIdxsOf_eq, hpj]
  rw [← hentry]
  apply find?_unique_mem hg
  · exact List.elem_iff.mpr hjg
  · intro y hy hpy
    obtain ⟨q, ks⟩ := y
    have hjky : j ∈ ks := List.elem_iff.mp hpy
    have hq : prefixOf (cols.getD j "") = q := buildGroups_member_pref cols hy hjky
    have : q = p := hq.symm.trans hpj
    subst this
    have h1 := buildGroups_mem_eq cols q ks hy
    have h2 := buildGroups_mem_eq cols q js hg
    rw [h1, ← h2]

theorem buildGroups_find?_not_metric (cols : List String) (j : Nat)
    (hj : j ∉ (List.range cols.length).filter (fun j2 => isMetricCol (cols.getD j2 ""))) :
    (buildGroups cols).find? (fun g => g.2.contains j) = none := by
  apply List.find?_eq_none.mpr
  intro g hg
  obtain ⟨p, js⟩ := g
  intro hcontra
  exact hj (buildGroups_member_metric cols hg (List.elem_iff.mp hcontra))

theorem buildGroups_disjoint (cols : List String) :
    (buildGroups cols).Pairwise (fun g1 g2 => ∀ x, x ∈ g1.2 → x ∉ g2.2) := by
  have hnd := buildGroups_nodup cols
  rw [List.Nodup] at hnd
  have hp : (buildGroups cols).Pairwise (fun g1 g2 => g1.1 ≠ g2.1) := by
    rw [← List.pairwise_map (f := Prod.fst)]
    exact hnd
  apply List.Pairwise.imp_of_mem ?_ hp
  intro g1 g2 h1 h2 hne x hx1 hx2
  obtain ⟨p1, js1⟩ := g1
  obtain ⟨p2, js2⟩ := g2
  exact hne (((buildGroups_member_pref cols h1 hx1).symm.trans
    (buildGroups_member_pref cols h2 hx2)) ▸ rfl)

theorem step_cellAt_untouched (m : Nat) (rows : List (List (Option Int)))
    (g : String × List Nat) (i j : Nat) (h : g.2.contains j = false) :
    cellAt (if g.2.length < m then rows else applyGroup g.2 rows) i j =
      cellAt rows i j := by
  by_cases hs : g.2.length < m
  · rw [if_pos hs]
  · rw [if_neg hs]
    exact applyGroup_cellAt_untouched g.2 rows i j h

theorem step_row_length (m : Nat) (rows : List (List (Option Int)))
    (g : String × List Nat) (i : Nat) :
    ((if g.2.length < m then rows else applyGroup g.2 rows).getD i []).length =
      (rows.getD i []).length := by
  by_cases hs : g.2.length < m
  · rw [if_pos hs]
  · rw [if_neg hs]
    exact applyGroup_row_length g.2 rows i

theorem step_rows_length (m : Nat) (rows : List (List (Option Int)))
    (g : String × List Nat) :
    (if g.2.length < m then rows else applyGroup g.2 rows).length = rows.length := by
  by_cases hs : g.2.length < m
  · rw [if_pos hs]
  · rw [if_neg hs]
    exact applyGroup_rows_length g.2 rows

theorem any_congr2 {α : Type} (l : List α) (p q : α → Bool)
    (h : ∀ x ∈ l, p x = q x) : l.any p = l.any q := by
  induction l with
  | nil => rfl
  | cons a t ih =>
    rw [List.any_cons, List.any_cons, h a (by simp),
      ih (fun x hx => h x (List.mem_cons_of_mem _ hx))]

theorem rowHasAny_congr (js : List Nat) (rows1 rows2 : List (List (Option Int)))
    (i : Nat) (h : ∀ x ∈ js, cellAt rows1 i x = cellAt rows2 i x) :
    rowHasAny js (rows1.getD i []) = rowHasAny js (rows2.getD i []) := by
  unfold rowHasAny
  apply any_congr2
  intro x hx
  have hx2 := h x hx
  unfold cellAt at hx2
  rw [hx2]

theorem fold_rows_length (m : Nat) :
    ∀ (gs : List (String × List Nat)) (rows : List (List (Option Int))),
      (gs.foldl (fun rs g => if g.2.length < m then rs else applyGroup g.2 rs) rows).length =
        rows.length := by
  intro gs
  induction gs with
  | nil => intro rows; rfl
  | cons g0 gs' ih =>
    intro rows
    rw [List.foldl_cons, ih, step_rows_length]

theorem fold_row_length (m : Nat) :
    ∀ (gs : List (String × List Nat)) (rows : List (List (Option Int))) (i : Nat),
      ((gs.foldl (fun rs g => if g.2.length < m then rs else applyGroup g.2 rs) rows).getD
          i []).length = (rows.getD i []).length := by
  intro gs
  induction gs with
  | nil => intro rows i; rfl
  | cons g0 gs' ih =>
    intro rows i
    rw [List.foldl_cons, ih, step_row_length]

theorem fold_cellAt (m : Nat) :
    ∀ (gs : List (String × List Nat)) (rows : List (List (Option Int))) (i j : Nat),
      gs.Pairwise (fun g1 g2 => ∀ x, x ∈ g1.2 → x ∉ g2.2) →
      cellAt (gs.foldl (fun rs g => if g.2.length < m then rs else applyGroup g.2 rs) rows) i j =
        (match gs.find? (fun g => g.2.contains j) with
         | some g =>
           if m ≤ g.2.length ∧ rowHasAny g.2 (rows.getD i []) = true ∧
              cellAt rows i j = none ∧ j < (rows.getD i []).length
           then some 0 else cellAt rows i j
         | none => cellAt rows i j) := by
  intro gs
  induction gs with
  | nil => intro rows i j _; rfl
  | cons g0 gs' ih =>
    intro rows i j hdis
    rw [List.pairwise_cons] at hdis
    obtain ⟨hd, hdis'⟩ := hdis
    rw [List.foldl_cons]
    by_cases c0 : g0.2.contains j = true
    · have hfc : List.find? (fun g => g.2.contains j) (g0 :: gs') = some g0 := by
        simp [List.find?_cons, List.elem_iff.mp c0]
      simp only [hfc]
      have hnone : gs'.find? (fun g => g.2.contains j) = none := by
        apply List.find?_eq_none.mpr
        intro g' hg' hcontra
        exact (hd g' hg' j (List.elem_iff.mp c0)) (List.elem_iff.mp hcontra)
      rw [ih (if g0.2.length < m then rows else applyGroup g0.2 rows) i j hdis']
      simp only [hnone]
      by_cases hs : g0.2.length < m
      · rw [if_pos hs, if_neg]
        intro hcontra
        exact absurd hcontra.1 (Nat.not_le.mpr hs)
      · rw [if_neg hs, applyGroup_cellAt]
        have hiff : rowHasAny g0.2 (rows.getD i []) = true ∧ cellAt rows i j = none ∧
            g0.2.contains j = true ∧ j < (rows.getD i []).length ↔
            m ≤ g0.2.length ∧ rowHasAny g0.2 (rows.getD i []) = true ∧
            cellAt rows i j = none ∧ j < (rows.getD i []).length := by
          constructor
          · rintro ⟨h1, h2, _, h4⟩
            exact ⟨Nat.not_lt.mp hs, h1, h2, h4⟩
          · rintro ⟨_, h1, h2, h4⟩
            exact ⟨h1, h2, c0, h4⟩
        exact if_congr hiff rfl rfl
    · have c0' : g0.2.contains j = false := by rwa [Bool.not_eq_true] at c0
      have hnm : j ∉ g0.2 := fun hm =>
        Bool.false_ne_true (c0' ▸ List.elem_iff.mpr hm)
      have hfc : List.find? (fun g => g.2.contains j) (g0 :: gs') =
          List.find? (fun g => g.2.contains j) gs' := by
        simp [List.find?_cons, hnm]
      simp only [hfc]
      rw [ih (if g0.2.length < m then rows else applyGroup g0.2 rows) i j hdis']
      cases hfind : gs'.find? (fun g => g.2.contains j) with
      | none =>
        simp only [hfind]
        exact step_cellAt_untouched m rows g0 i j c0'
      | some g =>
        simp only [hfind]
        have hgmem : g ∈ gs' := List.mem_of_find?_eq_some hfind
        have hcells : ∀ x ∈ g.2,
            cellAt (if g0.2.length < m then rows else applyGroup g0.2 rows) i x =
              cellAt rows i x := by
          intro x hx
          apply step_cellAt_untouched
          by_cases hx0 : g0.2.contains x = true
          · exact absurd hx (hd g hgmem x (List.elem_iff.mp hx0))
          · rwa [Bool.not_eq_true] at hx0
        rw [step_cellAt_untouched m rows g0 i j c0', step_row_length m rows g0 i,
          rowHasAny_congr g.2 (if g0.2.length < m then rows else applyGroup g0.2 rows)
            rows i hcells]

theorem autofill_cellAt (t : DTable) (m : Nat) (i j : Nat) :
    cellAt (autofill_nan_groups t m).rows i j =
      if j ∈ (List.range t.cols.length).filter (fun j2 => isMetricCol (t.cols.getD j2 "")) ∧
         m ≤ (groupIdxsOf t.cols j).length ∧
         rowHasAny (groupIdxsOf t.cols j) (t.rows.getD i []) = true ∧
         cellAt t.rows i j = none ∧ j < (t.rows.getD i []).length
      then some 0 else cellAt t.rows i j := by
  have hbase : (autofill_nan_groups t m).rows =
      (buildGroups t.cols).foldl
        (fun rs g => if g.2.length < m then rs else applyGroup g.2 rs) t.rows := rfl
  rw [hbase, fold_cellAt m (buildGroups t.cols) t.rows i j (buildGroups_disjoint t.cols)]
  by_cases hj : j ∈ (List.range t.cols.length).filter (fun j2 => isMetricCol (t.cols.getD j2 ""))
  · simp only [buildGroups_find?_metric t.cols j hj]
    have hiff : m ≤ (groupIdxsOf t.cols j).length ∧
        rowHasAny (groupIdxsOf t.cols j) (t.rows.getD i []) = true ∧
        cellAt t.rows i j = none ∧ j < (t.rows.getD i []).length ↔
        j ∈ (List.range t.cols.length).filter (fun j2 => isMetricCol (t.cols.getD j2 "")) ∧
        m ≤ (groupIdxsOf t.cols j).length ∧
        rowHasAny (groupIdxsOf t.cols j) (t.rows.getD i []) = true ∧
        cellAt t.rows i j = none ∧ j < (t.rows.getD i []).length := by
      constructor
      · rintro ⟨h1, h2, h3, h4⟩; exact ⟨hj, h1, h2, h3, h4⟩
      · rintro ⟨_, h1, h2, h3, h4⟩; exact ⟨h1, h2, h3, h4⟩
    exact if_congr hiff rfl rfl
  · simp only [buildGroups_find?_not_metric t.cols j hj]
    rw [if_neg]
    intro hcontra
    exact hj hcontra.1

theorem groupIdxsOf_member_eq (cols : List String) (j j2 : Nat)
    (hj2 : j2 ∈ groupIdxsOf cols j) : groupIdxsOf cols j2 = groupIdxsOf cols j := by
  have hpref : prefixOf (cols.getD j2 "") = prefixOf (cols.getD j "") := by
    have h1 := List.of_mem_filter hj2
    rw [Bool.and_eq_true] at h1
    exact beq_iff_eq.mp h1.2
  unfold groupIdxsOf
  rw [hpref]

theorem rowHasAny_iff_exists (js : List Nat) (rows : List (List (Option Int))) (i : Nat) :
    rowHasAny js (rows.getD i []) = true ↔ ∃ j2 ∈ js, cellAt rows i j2 ≠ none := by
  unfold rowHasAny cellAt
  rw [List.any_eq_true]
  constructor
  · rintro ⟨j2, hj2, hs⟩
    exact ⟨j2, hj2, Option.isSome_iff_ne_none.mp hs⟩
  · rintro ⟨j2, hj2, hs⟩
    exact ⟨j2, hj2, Option.isSome_iff_ne_none.mpr hs⟩

theorem metric_mem_iff (cols : List String) (j : Nat) (hj : j < cols.length) :
    j ∈ (List.range cols.length).filter (fun j2 => isMetricCol (cols.getD j2 "")) ↔
      isMetricCol (cols.getD j "") = true := by
  rw [List.mem_filter, List.mem_range]
  exact ⟨fun h => h.2, fun h => ⟨hj, h⟩⟩

/-- C4: the group-aware fill partitions the flattened distribution columns (a
dot plus the word "distributions" in the name) by their dotted prefix, ignores
groups smaller than the minimum size, and rewrites each cell of a retained
group to zero exactly when the cell is missing but some sibling cell of the
same group is present on that row; every other cell of the table, and the
column schema and row count, are unchanged. -/
theorem c4_autofill_groups (t : DTable) (m : Nat) (hrect : Rect t) (i j : Nat)
    (hi : i < t.rows.length) (hj : j < t.cols.length) :
    (autofill_nan_groups t m).cols = t.cols ∧
    (autofill_nan_groups t m).rows.length = t.rows.length ∧
    cellAt (autofill_nan_groups t m).rows i j =
      (if isMetricCol (t.cols.getD j "") = true ∧ m ≤ (groupIdxsOf t.cols j).length ∧
          (∃ j2 ∈ groupIdxsOf t.cols j, cellAt t.rows i j2 ≠ none) ∧
          cellAt t.rows i j = none
       then some 0 else cellAt t.rows i j) := by
  have hrow : (t.rows.getD i []).length = t.cols.length := by
    apply hrect
    rw [List.getD_eq_getElem t.rows [] hi]
    exact List.getElem_mem hi
  refine ⟨rfl, fold_rows_length m (buildGroups t.cols) t.rows, ?_⟩
  rw [autofill_cellAt]
  apply if_congr ?_ rfl rfl
  rw [metric_mem_iff t.cols j hj, rowHasAny_iff_exists]
  constructor
  · rintro ⟨h1, h2, h3, h4, _⟩
    exact ⟨h1, h2, h3, h4⟩
  · rintro ⟨h1, h2, h3, h4⟩
    exact ⟨h1, h2, h3, h4, by rw [hrow]; exact hj⟩

/-- Witness for C4: a concrete two-column distribution group plus an untouched
column; the observed-row gap is zeroed, the all-missing row stays missing. -/
theorem c4_autofill_groups_witness :
    Rect { cols := ["Noise_distributions.a", "Noise_distributions.b", "m"],
           rows := [[none, some 3, none], [none, none, some 5]] } ∧
    autofill_nan_groups
        { cols := ["Noise_distributions.a", "Noise_distributions.b", "m"],
          rows := [[none, some 3, none], [none, none, some 5]] } 2 =
      { cols := ["Noise_distributions.a", "Noise_distributions.b", "m"],
        rows := [[some 0, some 3, none], [none, none, some 5]] } ∧
    cellAt (autofill_nan_groups
        { cols := ["Noise_distributions.a", "Noise_distributions.b", "m"],
          rows := [[none, some 3, none], [none, none, some 5]] } 2).rows 0 0 =
      (if isMetricCol ((["Noise_distributions.a", "Noise_distributions.b", "m"] : List String).getD 0 "") = true ∧
          2 ≤ (groupIdxsOf ["Noise_distributions.a", "Noise_distributions.b", "m"] 0).length ∧
          (∃ j2 ∈ groupIdxsOf ["Noise_distributions.a", "Noise_distributions.b", "m"] 0,
            cellAt [[none, some 3, none], [none, none, some 5]] 0 j2 ≠ none) ∧
          cellAt [[none, some 3, none], [none, none, some 5]] 0 0 = none
       then some 0 else cellAt [[none, some 3, none], [none, none, some 5]] 0 0) :=
  ⟨fun r hr => by
      simp only [List.mem_cons, List.not_mem_nil, or_false] at hr
      rcases hr with h | h <;> rw [h] <;> rfl,
   by decide,
   (c4_autofill_groups
      { cols := ["Noise_distributions.a", "Noise_distributions.b", "m"],
        rows := [[none, some 3, none], [none, none, some 5]] } 2
      (fun r hr => by
        simp only [List.mem_cons, List.not_mem_nil, or_false] at hr
        rcases hr with h | h <;> rw [h] <;> rfl)
      0 0 (by decide) (by decide)).2.2⟩

theorem dtable_rows_ext (r1 r2 : List (List (Option Int)))
    (hlen : r1.length = r2.length)
    (hrowlen : ∀ i, (r1.getD i []).length = (r2.getD i []).length)
    (hcell : ∀ i j, cellAt r1 i j = cellAt r2 i j) : r1 = r2 := by
  apply List.ext_getElem hlen
  intro i h1 h2
  apply List.ext_getElem
  · have h := hrowlen i
    rw [List.getD_eq_getElem r1 [] h1, List.getD_eq_getElem r2 [] h2] at h
    exact h
  · intro j hj1 hj2
    have h := hcell i j
    unfold cellAt at h
    rw [List.getD_eq_getElem r1 [] h1, List.getD_eq_getElem r2 [] h2,
      List.getD_eq_getElem _ _ hj1, List.getD_eq_getElem _ _ hj2] at h
    exact h

theorem dtable_eq (a b : DTable) (h1 : a.cols = b.cols) (h2 : a.rows = b.rows) :
    a = b := by
  cases a
  cases b
  simp only at h1 h2
  rw [h1, h2]

/-- C5: the group-aware fill is idempotent — applying `autofill_nan_groups`
twice to a table gives the same table as applying it once: the first pass
leaves every retained group on every row either fully missing or without
missing cells, so the second pass finds nothing to change. -/
theorem c5_autofill_idempotent (t : DTable) (m : Nat) :
    autofill_nan_groups (autofill_nan_groups t m) m = autofill_nan_groups t m := by
  apply dtable_eq
  · rfl
  apply dtable_rows_ext
  · exact fold_rows_length m (buildGroups t.cols) (autofill_nan_groups t m).rows
  · intro i
    exact fold_row_length m (buildGroups t.cols) (autofill_nan_groups t m).rows i
  · intro i j
    rw [autofill_cellAt (autofill_nan_groups t m) m i j]
    rw [if_neg]
    rintro ⟨hjm, hsize, hany, hnone, hlt1⟩
    have h0 := autofill_cellAt t m i j
    rw [h0] at hnone
    have hnone0 : cellAt t.rows i j = none := by
      by_cases hc : j ∈ (List.range t.cols.length).filter
            (fun j2 => isMetricCol (t.cols.getD j2 "")) ∧
          m ≤ (groupIdxsOf t.cols j).length ∧
          rowHasAny (groupIdxsOf t.cols j) (t.rows.getD i []) = true ∧
          cellAt t.rows i j = none ∧ j < (t.rows.getD i []).length
      · rw [if_pos hc] at hnone
        exact absurd hnone (by simp)
      · rw [if_neg hc] at hnone
        exact hnone
    have hrow0 : rowHasAny (groupIdxsOf t.cols j) (t.rows.getD i []) = false := by
      by_cases hr : rowHasAny (groupIdxsOf t.cols j) (t.rows.getD i []) = true
      · exfalso
        have hlt0 : j < (t.rows.getD i []).length := by
          have hfl : ((autofill_nan_groups t m).rows.getD i []).length =
              (t.rows.getD i []).length :=
            fold_row_length m (buildGroups t.cols) t.rows i
          rw [hfl] at hlt1
          exact hlt1
        exact absurd hnone (by
          rw [if_pos ⟨hjm, hsize, hr, hnone0, hlt0⟩]
          simp)
      · rwa [Bool.not_eq_true] at hr
    have hall0 : ∀ j2 ∈ groupIdxsOf t.cols j, cellAt t.rows i j2 = none := by
      intro j2 hj2
      by_contra hne
      exact absurd ((rowHasAny_iff_exists _ _ _).mpr ⟨j2, hj2, hne⟩)
        (by rw [hrow0]; exact Bool.false_ne_true)
    obtain ⟨j2, hj2, hne1⟩ := (rowHasAny_iff_exists _ _ _).mp hany
    apply hne1
    rw [autofill_cellAt t m i j2, if_neg]
    · exact hall0 j2 hj2
    · rintro ⟨_, _, hr2, _, _⟩
      rw [groupIdxsOf_member_eq t.cols j j2 hj2, hrow0] at hr2
      exact Bool.false_ne_true hr2

theorem mkIRows_length (rows : List SRow) : (mkIRows rows).length = rows.length := by
  unfold mkIRows
  rw [List.length_map, List.enum_length]

theorem mkIRows_getElem (rows : List SRow) (k : Nat) (hk : k < (mkIRows rows).length)
    (hk2 : k < rows.length) :
    (mkIRows rows)[k] =
      { idx := k, row := rows[k], pdate := parseDMY (rows[k]).date,
        ptime := parseHMS (rows[k]).session : IRow } := by
  unfold mkIRows
  rw [List.getElem_map, List.getElem_enum]

theorem sortedIRows_perm (rows : List SRow) :
    (sortedIRows rows).Perm (mkIRows rows) :=
  List.perm_insertionSort timeLe (mkIRows rows)

theorem sortedIRows_length (rows : List SRow) :
    (sortedIRows rows).length = rows.length := by
  rw [(sortedIRows_perm rows).length_eq, mkIRows_length]

theorem sortedIRows_sorted (rows : List SRow) :
    (sortedIRows rows).Pairwise timeLe :=
  List.sorted_insertionSort timeLe (mkIRows rows)

theorem mkIRows_map_idx (rows : List SRow) :
    (mkIRows rows).map IRow.idx = List.range rows.length := by
  unfold mkIRows
  rw [List.map_map]
  have : (IRow.idx ∘ fun p : Nat × SRow =>
      { idx := p.1, row := p.2, pdate := parseDMY p.2.date,
        ptime := parseHMS p.2.session : IRow }) = Prod.fst := by
    funext p
    rfl
  rw [this, List.enum_map_fst]

theorem sortedIRows_idx_perm (rows : List SRow) :
    ((sortedIRows rows).map IRow.idx).Perm (List.range rows.length) := by
  rw [← mkIRows_map_idx]
  exact (sortedIRows_perm rows).map IRow.idx

theorem sortedIRows_idx_nodup (rows : List SRow) :
    ((sortedIRows rows).map IRow.idx).Nodup :=
  ((sortedIRows_idx_perm rows).nodup_iff).mpr (List.nodup_range _)

theorem sorted_fields (rows : List SRow) {x : IRow} (hx : x ∈ sortedIRows rows) :
    ∃ hk : x.idx < rows.length, x.row = rows[x.idx] ∧
      x.pdate = parseDMY (rows[x.idx]).date ∧ x.ptime = parseHMS (rows[x.idx]).session := by
  have hx2 : x ∈ mkIRows rows := (sortedIRows_perm rows).mem_iff.mp hx
  obtain ⟨k, hk, hget⟩ := List.getElem_of_mem hx2
  have hk2 : k < rows.length := by rw [← mkIRows_length rows]; exact hk
  rw [mkIRows_getElem rows k hk hk2] at hget
  have hidx : x.idx = k := by rw [← hget]
  subst hidx
  refine ⟨hk2, ?_, ?_, ?_⟩
  · exact (congrArg IRow.row hget).symm
  · exact (congrArg IRow.pdate hget).symm
  · exact (congrArg IRow.ptime hget).symm

theorem find?_enumFrom_map {α β : Type} (key : α → Nat) (val : Nat → α → β) (i : Nat) :
    ∀ (l : List α) (n p : Nat) (hp : p < l.length),
      (l.map key).Nodup → key l[p] = i →
      ((l.enumFrom n).map (fun q => (key q.2, val q.1 q.2))).find?
          (fun e => e.1 == i) = some (i, val (n + p) l[p]) := by
  intro l
  induction l with
  | nil => intro n p hp; simp at hp
  | cons a t ih =>
    intro n p hp hnd hkey
    rw [List.enumFrom_cons, List.map_cons]
    cases p with
    | zero =>
      have hkey0 : key a = i := hkey
      have hpred : (key a == i) = true := beq_iff_eq.mpr hkey0
      simp only [List.find?_cons, hpred]
      rw [show (a :: t)[0] = a from rfl, hkey0, Nat.add_zero]
    | succ p2 =>
      have hpt : p2 < t.length := by
        rw [List.length_cons] at hp
        omega
      have hkt : key t[p2] = i := by
        rw [show (a :: t)[p2 + 1] = t[p2] from List.getElem_cons_succ a t p2 _] at hkey
        exact hkey
      simp only [List.map_cons, List.nodup_cons] at hnd
      have hne : ¬key a = i := by
        intro hcontra
        apply hnd.1
        rw [hcontra, ← hkt]
        exact List.mem_map.mpr ⟨t[p2], List.getElem_mem hpt, rfl⟩
      have hpred : (key a == i) = false := by
        simp only [beq_eq_false_iff_ne, ne_eq]
        exact hne
      simp only [List.find?_cons, hpred]
      rw [ih (n + 1) p2 hpt hnd.2 hkt]
      rw [show (a :: t)[p2 + 1] = t[p2] from List.getElem_cons_succ a t p2 _,
        show n + 1 + p2 = n + (p2 + 1) from by omega]

theorem cumOf_find? (rows : List SRow) (i p : Nat)
    (hp : p < (sortedIRows rows).length)
    (hidx : ((sortedIRows rows)[p]).idx = i) :
    (cumOf rows).find? (fun e => e.1 == i) =
      some (i, ordAtPos rows (p, (sortedIRows rows)[p])) := by
  have h := find?_enumFrom_map IRow.idx (fun n x => ordAtPos rows (n, x)) i
    (sortedIRows rows) 0 p hp (sortedIRows_idx_nodup rows) hidx
  rw [Nat.zero_add] at h
  exact h

theorem add_session_number_length (rows : List SRow) :
    (add_session_number rows).length = rows.length := by
  unfold add_session_number
  rw [List.length_map, List.enum_length]

theorem add_session_number_map_fst (rows : List SRow) :
    (add_session_number rows).map Prod.fst = rows := by
  unfold add_session_number
  rw [List.map_map]
  have h : (Prod.fst ∘ fun p : Nat × SRow =>
      (p.2, (((cumOf rows).find? (fun e => e.1 == p.1)).map (fun e => e.2)).getD none)) =
      Prod.snd := by
    funext p
    rfl
  rw [h, List.enum_map_snd]

theorem nSessionAt_eq (rows : List SRow) (i : Nat) (hi : i < rows.length) :
    nSessionAt rows i =
      (((cumOf rows).find? (fun e => e.1 == i)).map (fun e => e.2)).getD none := by
  unfold nSessionAt
  have hlen : i < (add_session_number rows).length := by
    rw [add_session_number_length]; exact hi
  rw [List.getD_eq_getElem _ _ hlen]
  unfold add_session_number
  rw [List.getElem_map, List.getElem_enum]

theorem nSessionAt_spec (rows : List SRow) (i : Nat) (hi : i < rows.length) :
    ∃ p, ∃ hp : p < (sortedIRows rows).length,
      ((sortedIRows rows)[p]).idx = i ∧
      ((sortedIRows rows)[p]).row = rows[i] ∧
      ((sortedIRows rows)[p]).pdate = parseDMY (rows[i]).date ∧
      ((sortedIRows rows)[p]).ptime = parseHMS (rows[i]).session ∧
      nSessionAt rows i = ordAtPos rows (p, (sortedIRows rows)[p]) := by
  have hmem : i ∈ (sortedIRows rows).map IRow.idx :=
    ((sortedIRows_idx_perm rows).mem_iff).mpr (List.mem_range.mpr hi)
  obtain ⟨x, hx, hxidx⟩ := List.mem_map.mp hmem
  obtain ⟨p, hp, hgp⟩ := List.getElem_of_mem hx
  obtain ⟨hk, hrow, hpd, hpt⟩ := sorted_fields rows (hgp ▸ List.getElem_mem hp)
  subst hxidx
  have hidx : ((sortedIRows rows)[p]).idx = x.idx := by rw [hgp]
  refine ⟨p, hp, hidx, ?_, ?_, ?_, ?_⟩
  · rw [hgp]; exact hrow
  · rw [hgp]; exact hpd
  · rw [hgp]; exact hpt
  · rw [nSessionAt_eq rows x.idx hk, cumOf_find? rows x.idx p hp hidx]
    rfl

theorem countP_take_succ {α : Type} (l : List α) (pred : α → Bool) (p1 : Nat)
    (hp1 : p1 < l.length) (hpred : pred l[p1] = true) :
    (l.take (p1 + 1)).countP pred = (l.take p1).countP pred + 1 := by
  rw [List.take_succ, List.countP_append, List.getElem?_eq_getElem hp1]
  simp [List.countP_cons, hpred]

theorem countP_take_le {α : Type} (l : List α) (pred : α → Bool) (n1 n2 : Nat)
    (h : n1 ≤ n2) : (l.take n1).countP pred ≤ (l.take n2).countP pred := by
  have hsub : (l.take n1).Sublist (l.take n2) := List.take_sublist_take_left l h
  exact hsub.countP_le pred

theorem countP_take_rank {α : Type} (l : List α) (pred : α → Bool) (p1 p2 : Nat)
    (h12 : p1 < p2) (hp1 : l.length > p1) (hpred : pred l[p1] = true) :
    (l.take p1).countP pred + 1 ≤ (l.take p2).countP pred := by
  have h1 := countP_take_succ l pred p1 hp1 hpred
  have h2 := countP_take_le l pred (p1 + 1) p2 h12
  omega

theorem pos_lt_of_key_lt (l : List IRow) (hs : l.Pairwise timeLe) (p q : Nat)
    (hp : p < l.length) (hq : q < l.length)
    (hkey : timeKeyNum (l[p]).ptime < timeKeyNum (l[q]).ptime) : p < q := by
  rcases Nat.lt_trichotomy p q with h | h | h
  · exact h
  · exfalso
    subst h
    omega
  · exfalso
    have ht := List.pairwise_iff_getElem.mp hs q p hq hp h
    unfold timeLe at ht
    omega

theorem countP_sameGroup_congr (l : List IRow) {a b : IRow}
    (hsub : a.row.subject_id = b.row.subject_id) (hd : a.pdate = b.pdate) :
    l.countP (fun r => sameGroup r a) = l.countP (fun r => sameGroup r b) := by
  apply List.countP_congr
  intro r _
  unfold sameGroup
  rw [hsub, hd]

theorem sameGroup_self (a : IRow) : sameGroup a a = true := by
  unfold sameGroup
  simp

theorem ordAtPos_eq_none (rows : List SRow) (q : Nat × IRow) (h : q.2.pdate = none) :
    ordAtPos rows q = none := by
  unfold ordAtPos
  rw [h]

theorem ordAtPos_eq_some (rows : List SRow) (q : Nat × IRow) (d : Nat)
    (h : q.2.pdate = some d) :
    ordAtPos rows q =
      some (1 + ((sortedIRows rows).take q.1).countP (fun r => sameGroup r q.2)) := by
  unfold ordAtPos
  rw [h]

/-- C3 (amended): `add_session_number` keeps every row in place; a row whose
date is unparseable receives a missing ordinal; a row whose date parses
receives an ordinal, at least 1, even when its session is unparseable (such a
row sorts after the parseable sessions of its group rather than being
skipped); within a (subject, parsed date) group, parseable session times get
strictly increasing ordinals in ascending time order; and on the claim's
example, the 09:00 row gets n_session 1 and the 14:00 row gets 2. -/
theorem c3_session_ordinals (rows : List SRow) :
    ((add_session_number rows).map Prod.fst = rows) ∧
    (∀ i, i < rows.length → parseDMY ((rows.getD i srDefault).date) = none →
      nSessionAt rows i = none) ∧
    (∀ i, i < rows.length → ∀ d, parseDMY ((rows.getD i srDefault).date) = some d →
      ∃ n, nSessionAt rows i = some n ∧ 1 ≤ n) ∧
    (∀ i j, i < rows.length → j < rows.length →
      (rows.getD i srDefault).subject_id = (rows.getD j srDefault).subject_id →
      ∀ d, parseDMY ((rows.getD i srDefault).date) = some d →
        parseDMY ((rows.getD j srDefault).date) = some d →
      ∀ ti tj, parseHMS ((rows.getD i srDefault).session) = some ti →
        parseHMS ((rows.getD j srDefault).session) = some tj →
      ti < tj →
      ∃ ni nj, nSessionAt rows i = some ni ∧ nSessionAt rows j = some nj ∧ ni < nj) ∧
    add_session_number
        [{ subject_id := "S1", date := "06-01-2025", session := "14-00-00" },
         { subject_id := "S1", date := "06-01-2025", session := "09-00-00" }] =
      [({ subject_id := "S1", date := "06-01-2025", session := "14-00-00" }, some 2),
       ({ subject_id := "S1", date := "06-01-2025", session := "09-00-00" }, some 1)] := by
  refine ⟨add_session_number_map_fst rows, ?_, ?_, ?_, by decide⟩
  · intro i hi hnone
    rw [List.getD_eq_getElem rows srDefault hi] at hnone
    obtain ⟨p, hp, hidx, hrow, hpd, hpt, hval⟩ := nSessionAt_spec rows i hi
    rw [hval]
    exact ordAtPos_eq_none rows (p, (sortedIRows rows)[p]) (hpd.trans hnone)
  · intro i hi d hsome
    rw [List.getD_eq_getElem rows srDefault hi] at hsome
    obtain ⟨p, hp, hidx, hrow, hpd, hpt, hval⟩ := nSessionAt_spec rows i hi
    refine ⟨1 + ((sortedIRows rows).take p).countP
        (fun r => sameGroup r ((sortedIRows rows)[p])), ?_, by omega⟩
    rw [hval]
    exact ordAtPos_eq_some rows (p, (sortedIRows rows)[p]) d (hpd.trans hsome)
  · intro i j hi hj hsubj d hdi hdj ti tj hti htj hlt
    rw [List.getD_eq_getElem rows srDefault hi] at hsubj hdi hti
    rw [List.getD_eq_getElem rows srDefault hj] at hsubj hdj htj
    obtain ⟨p, hp, hpidx, hprow, hppd, hppt, hpval⟩ := nSessionAt_spec rows i hi
    obtain ⟨q, hq, hqidx, hqrow, hqpd, hqpt, hqval⟩ := nSessionAt_spec rows j hj
    have hkp : timeKeyNum (((sortedIRows rows)[p]).ptime) = ti := by
      rw [hppt, hti]
      rfl
    have hkq : timeKeyNum (((sortedIRows rows)[q]).ptime) = tj := by
      rw [hqpt, htj]
      rfl
    have hpq : p < q := pos_lt_of_key_lt (sortedIRows rows) (sortedIRows_sorted rows)
      p q hp hq (by rw [hkp, hkq]; exact hlt)
    have hsubg : ((sortedIRows rows)[q]).row.subject_id =
        ((sortedIRows rows)[p]).row.subject_id := by
      rw [hprow, hqrow]
      exact hsubj.symm
    have hdg : ((sortedIRows rows)[q]).pdate = ((sortedIRows rows)[p]).pdate := by
      rw [hppd, hqpd, hdi, hdj]
    refine ⟨1 + ((sortedIRows rows).take p).countP
        (fun r => sameGroup r ((sortedIRows rows)[p])),
      1 + ((sortedIRows rows).take q).countP
        (fun r => sameGroup r ((sortedIRows rows)[q])), ?_, ?_, ?_⟩
    · rw [hpval]
      exact ordAtPos_eq_some rows (p, (sortedIRows rows)[p]) d (hppd.trans hdi)
    · rw [hqval]
      exact ordAtPos_eq_some rows (q, (sortedIRows rows)[q]) d (hqpd.trans hdj)
    · have hcong : ((sortedIRows rows).take q).countP
            (fun r => sameGroup r ((sortedIRows rows)[q])) =
          ((sortedIRows rows).take q).countP
            (fun r => sameGroup r ((sortedIRows rows)[p])) :=
        countP_sameGroup_congr ((sortedIRows rows).take q) hsubg hdg
      have hrank := countP_take_rank (sortedIRows rows)
        (fun r => sameGroup r ((sortedIRows rows)[p])) p q hpq hp
        (sameGroup_self ((sortedIRows rows)[p]))
      omega

/-- C3 counterexample: a single row with a parseable date but unparseable
session time receives ordinal 1, not a missing ordinal — pandas groups by
(subject, date) only, so a missing session time does not exclude the row. -/
theorem c3_session_ordinals_counterexample :
    parseHMS "not-a-time" = none ∧
    add_session_number
        [{ subject_id := "S1", date := "06-01-2025", session := "not-a-time" }] =
      [({ subject_id := "S1", date := "06-01-2025", session := "not-a-time" }, some 1)] :=
  ⟨by decide, by decide⟩

/-- Witness for C3 on the claim's example table: the 09:00 row (position 1)
gets a strictly smaller ordinal than the 14:00 row (position 0); concretely
the ordinals are 1 and 2. -/
theorem c3_session_ordinals_witness :
    (∃ ni nj,
      nSessionAt [{ subject_id := "S1", date := "06-01-2025", session := "14-00-00" },
        { subject_id := "S1", date := "06-01-2025", session := "09-00-00" }] 1 = some ni ∧
      nSessionAt [{ subject_id := "S1", date := "06-01-2025", session := "14-00-00" },
        { subject_id := "S1", date := "06-01-2025", session := "09-00-00" }] 0 = some nj ∧
      ni < nj) ∧
    nSessionAt [{ subject_id := "S1", date := "06-01-2025", session := "14-00-00" },
      { subject_id := "S1", date := "06-01-2025", session := "09-00-00" }] 1 = some 1 ∧
    nSessionAt [{ subject_id := "S1", date := "06-01-2025", session := "14-00-00" },
      { subject_id := "S1", date := "06-01-2025", session := "09-00-00" }] 0 = some 2 :=
  ⟨(c3_session_ordinals [{ subject_id := "S1", date := "06-01-2025", session := "14-00-00" },
      { subject_id := "S1", date := "06-01-2025", session := "09-00-00" }]).2.2.2.1
    1 0 (by decide) (by decide) (by decide) 20250106 (by decide) (by decide)
    32400 50400 (by decide) (by decide) (by decide),
   by decide, by decide⟩
